import Mathlib

/-!
Verification of the resource-resolution module `package_resources.py`
(Sublime Text package/resource lookup).

Strings are modelled as `List Char` (`Str`).  The host environment
(`sublime.*` calls) is modelled by an `Env` structure, and the filesystem /
archive state by an `FS` structure of abstract observation functions.  The
functions of the module are translated one to one from the Python source;
Python exceptions that the source can raise (`ValueError` from tuple
unpacking, `IndexError` from `split[1]`, `FileNotFoundError` from
`os.listdir`) are modelled with `Except PyErr`.
-/

abbrev Str := List Char

/-- Python errors that the translated code can raise. -/
inductive PyErr where
  | valueError
  | indexError
  | fileNotFound
deriving DecidableEq

instance {ε α : Type} [DecidableEq ε] [DecidableEq α] :
    DecidableEq (Except ε α) := fun a b =>
  match a, b with
  | Except.error e, Except.error f =>
    if h : e = f then isTrue (by rw [h]) else isFalse (by simp [h])
  | Except.error _, Except.ok _ => isFalse (by simp)
  | Except.ok _, Except.error _ => isFalse (by simp)
  | Except.ok x, Except.ok y =>
    if h : x = y then isTrue (by rw [h]) else isFalse (by simp [h])

/-- Model of `str.startswith(pre)` / list prefix test (`startsWith pre s`). -/
def startsWith : Str → Str → Bool
  | [], _ => true
  | _ :: _, [] => false
  | a :: as, b :: bs => a = b && startsWith as bs

/-- Model of `str.endswith(suf)` (`endsWith suf s`). -/
def endsWith (suf s : Str) : Bool :=
  startsWith suf.reverse s.reverse

/-- Does `pat` occur as a contiguous substring of `s`?  (Semantics of
`re.search` for a metacharacter-free pattern, and the occurrence scan of
`str.replace`.) -/
def occursIn (pat : Str) : Str → Bool
  | [] => startsWith pat []
  | c :: rest => startsWith pat (c :: rest) || occursIn pat rest

/-- Fueled scan of Python `str.replace`.  The fuel only serves to make the
recursion structural (each scan step consumes at least one character, so
fuel `s.length` suffices); `replaceAllAux_congr` below shows the result
does not depend on a sufficient fuel. -/
def replaceAllAux (old : Str) : Nat → Str → Str
  | _, [] => []
  | 0, s => s
  | n + 1, c :: rest =>
    if old ≠ [] ∧ startsWith old (c :: rest) = true then
      replaceAllAux old n ((c :: rest).drop old.length)
    else
      c :: replaceAllAux old n rest

/-- Model of Python `s.replace(old, "")`: remove every (left-to-right,
non-overlapping) occurrence of `old` from `s`.  For `old = ""` Python's
`s.replace("", "")` returns `s` unchanged, which the `old ≠ []` guard
reproduces. -/
def replaceAll (old s : Str) : Str := replaceAllAux old s.length s

/-- Model of `re.split(r"/", s, 1)`: split at the first `/` only.  The
result `(before, some after)` models a two-element list, `(s, none)` the
one-element list produced when `s` contains no separator. -/
def splitOnce : Str → Str × Option Str
  | [] => ([], none)
  | c :: rest =>
    if c = '/' then ([], some rest)
    else
      match splitOnce rest with
      | (h, t) => (c :: h, t)

/-- Split a string on `/` (CPython `path.split('/')`): `""` yields `[""]`,
separators at the ends yield empty components. -/
def splitSlash : Str → List Str
  | [] => [[]]
  | c :: rest =>
    if c = '/' then [] :: splitSlash rest
    else
      match splitSlash rest with
      | h :: t => (c :: h) :: t
      | [] => [[c]]

/-- Join components with single `/` separators (CPython `sep.join(comps)`). -/
def joinSlash : List Str → Str
  | [] => []
  | [l] => l
  | l :: ls => l ++ '/' :: joinSlash ls

def dot : Str := ['.']
def dotdot : Str := ['.', '.']

/-- The component-reduction step of CPython `posixpath.normpath`:
skip empty and `.` components; append a component unless it is a `..`
that cancels against a previous real component. -/
def npStep (abs : Bool) (acc : List Str) (comp : Str) : List Str :=
  if comp = [] ∨ comp = dot then acc
  else if comp ≠ dotdot ∨ (abs = false ∧ acc = []) ∨ acc.getLast? = some dotdot then
    acc ++ [comp]
  else
    acc.dropLast

/-- Number of leading slashes CPython `posixpath.normpath` preserves:
`0` for relative paths, `2` for paths starting with exactly two slashes,
otherwise `1` for absolute paths. -/
def initialSlashes (p : Str) : Nat :=
  if startsWith ['/'] p then
    if startsWith ['/', '/'] p ∧ ¬ startsWith ['/', '/', '/'] p then 2 else 1
  else 0

/-- Assemble the output of `posixpath.normpath` from the preserved leading
slashes and the reduced component list; an empty result becomes `"."`. -/
def npOut (slashes : Nat) (comps : List Str) : Str :=
  let out := List.replicate slashes '/' ++ joinSlash comps
  if out = [] then dot else out

/-- Model of CPython `posixpath.normpath` (the `os.path.normpath` of the
POSIX hosts the plugin runs on). -/
def posixNormpath (p : Str) : Str :=
  if p = [] then dot
  else
    let slashes := initialSlashes p
    npOut slashes ((splitSlash p).foldl (npStep (decide (0 < slashes))) [])

/-- The character class `[a-zA-Z]` of the drive-letter pattern. -/
def isLetterChar (c : Char) : Prop :=
  ('a' ≤ c ∧ c ≤ 'z') ∨ ('A' ≤ c ∧ c ≤ 'Z')

instance (c : Char) : Decidable (isLetterChar c) := by
  unfold isLetterChar
  infer_instance

/-- Model of `re.sub(r"^([a-zA-Z]):", "/\\1", path)`: rewrite a leading
drive letter `X:` to `/X`. -/
def driveSub : Str → Str
  | c1 :: c2 :: rest =>
    if isLetterChar c1 ∧ c2 = ':' then '/' :: c1 :: rest
    else c1 :: c2 :: rest
  | s => s

/-- Model of `_normalize_to_sublime_path`: `os.path.normpath`, then the
drive-letter rewrite, then `re.sub(r"\\", "/", path)` (replace every
backslash by a forward slash). -/
def normalize_to_sublime_path (p : Str) : Str :=
  (driveSub (posixNormpath p)).map (fun c => if c = '\\' then '/' else c)

/-- Strip the trailing `/` run (`head.rstrip('/')` in `posixpath.split`). -/
def rstripSlashes (s : Str) : Str :=
  (s.reverse.dropWhile (fun c => c = '/')).reverse

/-- Model of `posixpath.split`: split at the last `/`; the head keeps no
trailing slashes unless it consists only of slashes. -/
def pySplit (path : Str) : Str × Str :=
  let tail := (path.reverse.takeWhile (fun c => ¬ c = '/')).reverse
  let head := path.take (path.length - tail.length)
  (if head ≠ [] ∧ head ≠ List.replicate head.length '/' then rstripSlashes head
   else head, tail)

/-- Model of `posixpath.dirname` (`os.path.dirname` on the POSIX hosts). -/
def dirname (path : Str) : Str :=
  (pySplit path).1

/-- Model of `posixpath.join` for two arguments (`os.path.join`). -/
def pyJoin2 (a b : Str) : Str :=
  if startsWith ['/'] b then b
  else if a = [] ∨ endsWith ['/'] a then a ++ b
  else a ++ '/' :: b

/-- Model of `os.path.join(a, b, c)`. -/
def pyJoin3 (a b c : Str) : Str :=
  pyJoin2 (pyJoin2 a b) c

/-- The archive extension `".sublime-package"`. -/
def extArchive : Str :=
  ['.', 's', 'u', 'b', 'l', 'i', 'm', 'e', '-', 'p', 'a', 'c', 'k', 'a', 'g', 'e']

/-- The literal `"Packages"` (appended to the executable's directory). -/
def pkgsDir : Str := ['P', 'a', 'c', 'k', 'a', 'g', 'e', 's']

/-- The literal `"Packages/"` stripped by `re.sub(r"^Packages/", "", path)`. -/
def pkgsSlash : Str := ['P', 'a', 'c', 'k', 'a', 'g', 'e', 's', '/']

/-- The literal `"Package/"` used to build `sublime.load_resource` paths. -/
def pkgSlash : Str := ['P', 'a', 'c', 'k', 'a', 'g', 'e', '/']

/-- The host environment: `sublime.version()`, the three root paths and the
`ignored_packages` setting.  All are abstract inputs supplied by Sublime. -/
structure Env where
  version : Nat
  packagesPath : Str
  installedPackagesPath : Str
  executablePath : Str
  ignoredPackages : List Str

/-- Value of `os.path.dirname(sublime.executable_path()) + os.sep + "Packages"`. -/
def execPackagesPath (env : Env) : Str :=
  dirname env.executablePath ++ '/' :: pkgsDir

/-- A directory tree: named subdirectories (in `os.walk` enumeration order)
and the file names of the directory itself. -/
inductive DirTree where
  | node (dirs : List (Str × DirTree)) (files : List Str)

/-- The filesystem and archive state observed by the module, as abstract
observation functions: `os.path.exists`, `os.listdir`, reading a file in
text/binary mode (`codecs.open`), a zip archive's `namelist`, `read` and
`extract`-to-fresh-temp-dir (the temp directory is folded into the
returned path), `bytes.decode`, `sublime.load_resource` (`none` models the
caught `IOError`), and the directory tree walked by `os.walk`. -/
structure FS where
  ex : Str → Bool
  listdir : Str → List Str
  readText : Str → Str → Str
  readBin : Str → Str
  zipNamelist : Str → List Str
  zipBytes : Str → Str → Str
  zipExtract : Str → Str → Str
  decode : Str → Str → Str
  loadResource : Str → Option Str
  treeAt : Str → DirTree

/-- Model of `os.walk(top)` without pruning, in top-down order: each visited
directory yields `(root, dirnames, filenames)`. -/
def pyWalkPlain (root : Str) : DirTree → List (Str × List Str × List Str)
  | .node dirs files =>
    (root, dirs.map Prod.fst, files) ::
      dirs.attach.flatMap (fun e => pyWalkPlain (pyJoin2 root e.1.1) e.1.2)
termination_by t => t
decreasing_by
  have h1 : sizeOf e.1 < sizeOf dirs := List.sizeOf_lt_of_mem e.2
  have h2 : sizeOf e.1.2 < sizeOf e.1 := by
    cases e.1 with
    | mk a b => simp
  simp only [DirTree.node.sizeOf_spec]
  omega

/-- Model of `_find_file`: split the resource into directory part and file
name, then return the first `os.walk` entry whose file list contains the
name. -/
def find_file (fs : FS) (abs_dir file_name : Str) : Option Str :=
  let sp := pySplit file_name
  let dir2 := pyJoin2 abs_dir sp.1
  let fn := sp.2
  match (pyWalkPlain dir2 (fs.treeAt dir2)).find? (fun t => t.2.2.contains fn) with
  | some t => some (pyJoin2 t.1 fn)
  | none => none

/-- Model of `_search_zip_for_file`. -/
def search_zip_for_file (fs : FS) (packages_path package file_name : Str)
    (path recursive_search return_binary : Bool) (encoding : Str) : Option Str :=
  if fs.ex (pyJoin2 packages_path package) then
    let namelist := fs.zipNamelist (pyJoin2 packages_path package)
    let fn := if recursive_search then
        match namelist.find? (fun n => endsWith file_name n) with
        | some n => n
        | none => file_name
      else file_name
    if fn ∈ namelist then
      if path then some (fs.zipExtract (pyJoin2 packages_path package) fn)
      else
        let b := fs.zipBytes (pyJoin2 packages_path package) fn
        some (if return_binary then b else fs.decode encoding b)
    else none
  else none

/-- Model of `_list_files_in_zip`. -/
def list_files_in_zip (fs : FS) (package_path package : Str) : List Str :=
  if fs.ex (pyJoin2 package_path package) then
    fs.zipNamelist (pyJoin2 package_path package)
  else []

/-- Model of `get_package_resource`: on hosts newer than build 3013
delegate to `sublime.load_resource`; otherwise search the unpacked
directory, then the installed archive, then the archive next to the
executable. -/
def get_package_resource (env : Env) (fs : FS) (package_name resource : Str)
    (get_path recursive_search return_binary : Bool) (encoding : Str) : Option Str :=
  let packages_path := env.packagesPath
  let sublime_package := package_name ++ extArchive
  if 3013 < env.version then
    fs.loadResource (pkgSlash ++ package_name ++ '/' :: resource)
  else
    let dirRes : Option Str :=
      if fs.ex (pyJoin2 packages_path package_name) then
        let path : Option Str :=
          if recursive_search then
            find_file fs (pyJoin2 packages_path package_name) resource
          else if fs.ex (pyJoin3 packages_path package_name resource) then
            some (pyJoin3 packages_path package_name resource)
          else none
        match path with
        | some pth =>
          if fs.ex pth then
            some (if get_path then pth
                  else if return_binary then fs.readBin pth
                  else fs.readText pth encoding)
          else none
        | none => none
      else none
    match dirRes with
    | some v => some v
    | none =>
      if 3006 ≤ env.version then
        let r2 :=
          if fs.ex (pyJoin2 env.installedPackagesPath sublime_package) then
            search_zip_for_file fs env.installedPackagesPath sublime_package
              resource get_path recursive_search return_binary encoding
          else none
        match r2 with
        | some v => some v
        | none =>
          if fs.ex (pyJoin2 (execPackagesPath env) sublime_package) then
            search_zip_for_file fs (execPackagesPath env) sublime_package
              resource get_path recursive_search return_binary encoding
          else none
      else none

/-- Model of the loop `for directory in directories: if directory in
ignored_directories: directories.remove(directory)` in `list_package_files`:
iteration by index over a list mutated in place, so the element sliding
into a removed element's position is skipped. -/
def buggyRemove (ign : List Str) (l : List Str) (i : Nat) : List Str :=
  if h : i < l.length then
    let x := l.get ⟨i, h⟩
    if x ∈ ign then buggyRemove ign (l.erase x) (i + 1)
    else buggyRemove ign l (i + 1)
  else l
termination_by l.length - i
decreasing_by
  · have hx : l.get ⟨i, h⟩ ∈ l := l.get_mem i h
    have := List.length_erase_of_mem hx
    omega
  · omega

/-- The `os.walk` collection loop of `list_package_files`: at each visited
directory prune the subdirectory list with `buggyRemove`, compute
`temp = root.replace(package_path, "")`, and collect
`os.path.join(temp, filename)` for every file; then descend into the
surviving subdirectories. -/
def walkCollect (ign : List Str) (pp : Str) (root : Str) : DirTree → List Str
  | .node dirs files =>
    let keep := buggyRemove ign (dirs.map Prod.fst) 0
    let temp := replaceAll pp root
    files.map (fun fn => pyJoin2 temp fn) ++
      dirs.attach.flatMap (fun e =>
        if e.1.1 ∈ keep then walkCollect ign pp (pyJoin2 root e.1.1) e.1.2 else [])
termination_by t => t
decreasing_by
  have h1 : sizeOf e.1 < sizeOf dirs := List.sizeOf_lt_of_mem e.2
  have h2 : sizeOf e.1.2 < sizeOf e.1 := by
    cases e.1 with
    | mk a b => simp
  simp only [DirTree.node.sizeOf_spec]
  omega

/-- Model of Python `set.update` on a set represented as a duplicate-free
list: append each new element not already present. -/
def setUpdate (s l : List Str) : List Str :=
  l.foldl (fun acc x => if x ∈ acc then acc else acc ++ [x]) s

/-- Python string comparison (`<=` on code points, lexicographic): the
order used by `sorted`. -/
def strLe : Str → Str → Bool
  | [], _ => true
  | _ :: _, [] => false
  | a :: as, b :: bs => if a = b then strLe as bs else decide (a < b)

/-- Relation form of `strLe`. -/
def strLeP (a b : Str) : Prop := strLe a b = true

instance : DecidableRel strLeP := fun a b => instDecidableEqBool (strLe a b) true

/-- Model of Python `sorted` on strings.  `strLe` is total and
antisymmetric, so every correct sort (Python's Timsort included) produces
this unique output. -/
def pySorted (l : List Str) : List Str := List.insertionSort strLeP l

/-- True of characters that stand only for themselves in a Python regular
expression pattern (outside character classes): everything except the
metacharacters `.` `^` `$` `*` `+` `?` `[` `]` `(` `)` `|` `\` and the two
braces.  A pattern made of such characters matches exactly its own literal
occurrences, so `re.search` on it is a plain substring test. -/
def isRegexLiteralChar (c : Char) : Bool :=
  !(c ∈ ['.', '^', '$', '*', '+', '?', '[', ']', '(', ')', '|', '\\',
      '\x7b', '\x7d'])

/-- The post-filter of `list_package_files`: an entry is dropped when the
unescaped pattern `re.compile("%s/" % ignored_directory)` `.search`es in
it.  The embedding models the search as a literal substring test for
`<ignored>/`, which is exactly `re.search` whenever every character of the
ignored name is `isRegexLiteralChar`; ignored names containing regex
metacharacters give the compiled pattern a different meaning (or fail to
compile) and lie outside this model, so every theorem about the filter
carries that restriction as a hypothesis. -/
def postFilterDropped (ign : List Str) (fn : Str) : Bool :=
  ign.any (fun d => occursIn (d ++ ['/']) fn)

/-- The `file_set` built by `list_package_files` (in first-insertion
order): the `os.walk` collection over the unpacked directory, then the
entry names of the installed archive and of the archive next to the
executable, de-duplicated. -/
def collectedSet (env : Env) (fs : FS) (package : Str)
    (ignored_directories : List Str) : List Str :=
  let package_path := pyJoin2 env.packagesPath package ++ ['/']
  let sublime_package := package ++ extArchive
  let fl0 := if fs.ex package_path then
      walkCollect ignored_directories package_path package_path (fs.treeAt package_path)
    else []
  let s1 := setUpdate [] fl0
  if 3006 ≤ env.version then
    let s2 := if fs.ex (pyJoin2 env.installedPackagesPath sublime_package) then
        setUpdate s1 (list_files_in_zip fs env.installedPackagesPath sublime_package)
      else s1
    if fs.ex (pyJoin2 (execPackagesPath env) sublime_package) then
      setUpdate s2 (list_files_in_zip fs (execPackagesPath env) sublime_package)
    else s2
  else s1

/-- Model of `list_package_files`: the collected set, post-filtered,
normalized and sorted. -/
def list_package_files (env : Env) (fs : FS) (package : Str)
    (ignored_directories : List Str) : List Str :=
  pySorted (((collectedSet env fs package ignored_directories).filter
      (fun fn => !postFilterDropped ignored_directories fn)).map
    normalize_to_sublime_path)

/-- Model of `os.listdir`: raises `FileNotFoundError` when the directory does not
exist. -/
def pyListdir (fs : FS) (d : Str) : Except PyErr (List Str) :=
  if fs.ex d then .ok (fs.listdir d) else .error .fileNotFound

/-- Model of `_get_packages_from_directory`: list the directory (which can
raise), keep the entries ending in `file_ext`, and strip `file_ext` with
`str.replace`. -/
def get_packages_from_directory (fs : FS) (directory : Str) (file_ext : Str) :
    Except PyErr (List Str) :=
  match pyListdir fs directory with
  | .error e => .error e
  | .ok entries =>
    .ok ((entries.filter (fun package => endsWith file_ext package)).map
      (fun package => replaceAll file_ext package))

/-- Model of `get_packages_list`: union the three roots' package names,
discard the ignored packages when requested, and sort. -/
def get_packages_list (env : Env) (fs : FS) (ignore_packages : Bool) :
    Except PyErr (List Str) :=
  match get_packages_from_directory fs env.packagesPath [] with
  | .error e => .error e
  | .ok l1 =>
    let s1 := setUpdate [] l1
    let step2 : Except PyErr (List Str) :=
      if 3006 ≤ env.version then
        match get_packages_from_directory fs env.installedPackagesPath extArchive with
        | .error e => .error e
        | .ok l2 =>
          match get_packages_from_directory fs (execPackagesPath env) extArchive with
          | .error e => .error e
          | .ok l3 => .ok (setUpdate (setUpdate s1 l2) l3)
      else .ok s1
    match step2 with
    | .error e => .error e
    | .ok s3 =>
      let s4 := if ignore_packages then
          env.ignoredPackages.foldl (fun st i => st.erase i) s3
        else s3
      .ok (pySorted s4)

/-- Model of `_search_for_package_and_resource`: strip every occurrence of
`packages_path + "/"`, split at the first `/` (the tuple unpacking raises
`ValueError` when there is no separator), and strip every occurrence of
the archive extension from the package component. -/
def search_for_package_and_resource (path packages_path : Str) :
    Except PyErr (Str × Str) :=
  let rel := replaceAll (packages_path ++ ['/']) path
  match splitOnce rel with
  | (pk, some res) => .ok (replaceAll extArchive pk, res)
  | (_, none) => .error .valueError

/-- One root check of the absolute branch of `get_package_and_resource_name`:
when the normalized path starts with the root, recompute (overwrite) the
`(package, asset)` pair, else keep the accumulated one. -/
def absRootStep (path root : Str) (acc : Option Str × Option Str) :
    Except PyErr (Option Str × Option Str) :=
  if startsWith root path then
    match search_for_package_and_resource path root with
    | .ok (pk, res) => .ok (some pk, some res)
    | .error e => .error e
  else .ok acc

/-- Model of `get_package_and_resource_name`: normalize, then either check
the three roots in order (later matches overwrite earlier ones) for an
absolute path, or strip a leading `Packages/` and split at the first `/`
(where `split[1]` raises `IndexError` when there is no separator). -/
def get_package_and_resource_name (env : Env) (p : Str) :
    Except PyErr (Option Str × Option Str) :=
  let path := normalize_to_sublime_path p
  if startsWith ['/'] path then
    match absRootStep path (normalize_to_sublime_path env.packagesPath) (none, none) with
    | .error e => .error e
    | .ok acc =>
      if 3006 ≤ env.version then
        match absRootStep path (normalize_to_sublime_path env.installedPackagesPath) acc with
        | .error e => .error e
        | .ok acc2 =>
          absRootStep path (normalize_to_sublime_path (execPackagesPath env)) acc2
      else .ok acc
  else
    let path2 := if startsWith pkgsSlash path then path.drop pkgsSlash.length else path
    match splitOnce path2 with
    | (pk, some rest) => .ok (some pk, some rest)
    | (_, none) => .error .indexError

/-! ### Basic lemmas about the string primitives -/

theorem startsWith_append_self (a t : Str) : startsWith a (a ++ t) = true := by
  induction a with
  | nil => rfl
  | cons x xs ih => simp [startsWith, ih]

theorem startsWith_iff (a s : Str) : startsWith a s = true ↔ ∃ t, s = a ++ t := by
  induction a generalizing s with
  | nil => simp [startsWith]
  | cons x xs ih =>
    cases s with
    | nil => simp [startsWith]
    | cons y ys =>
      simp only [startsWith, Bool.and_eq_true, decide_eq_true_eq, ih,
        List.cons_append, List.cons.injEq]
      constructor
      · rintro ⟨hxy, t, rfl⟩
        exact ⟨t, hxy.symm, rfl⟩
      · rintro ⟨t, hyx, hys⟩
        exact ⟨hyx.symm, t, hys⟩

theorem startsWith_extend (a r t : Str) (h : startsWith a r = true) :
    startsWith a (r ++ t) = true := by
  rw [startsWith_iff] at h ⊢
  obtain ⟨u, rfl⟩ := h
  exact ⟨u ++ t, by simp⟩

theorem occursIn_iff (pat s : Str) :
    occursIn pat s = true ↔ ∃ l r, s = l ++ pat ++ r := by
  induction s with
  | nil =>
    simp only [occursIn, startsWith_iff]
    constructor
    · rintro ⟨t, ht⟩
      exact ⟨[], t, by simpa using ht⟩
    · rintro ⟨l, r, h⟩
      rw [List.append_assoc] at h
      rcases List.append_eq_nil.mp h.symm with ⟨rfl, h2⟩
      exact ⟨r, by simpa using h2.symm⟩
  | cons c rest ih =>
    simp only [occursIn, Bool.or_eq_true, startsWith_iff, ih]
    constructor
    · rintro (⟨t, ht⟩ | ⟨l, r, hr⟩)
      · exact ⟨[], t, by simpa using ht⟩
      · exact ⟨c :: l, r, by simp [hr]⟩
    · rintro ⟨l, r, h⟩
      cases l with
      | nil => exact Or.inl ⟨r, by simpa using h⟩
      | cons d l' =>
        simp only [List.cons_append, List.cons.injEq] at h
        exact Or.inr ⟨l', r, h.2⟩

theorem startsWith_length_le (a s : Str) (h : startsWith a s = true) :
    a.length ≤ s.length := by
  induction a generalizing s with
  | nil => simp
  | cons x xs ih =>
    cases s with
    | nil => simp [startsWith] at h
    | cons y ys =>
      simp only [startsWith, Bool.and_eq_true, decide_eq_true_eq] at h
      have := ih ys h.2
      simp only [List.length_cons]
      omega

theorem replaceAllAux_congr (old : Str) :
    ∀ (k : Nat) (s : Str) (n m : Nat), s.length ≤ k → s.length ≤ n →
      s.length ≤ m → replaceAllAux old n s = replaceAllAux old m s := by
  intro k
  induction k with
  | zero =>
    intro s n m hk _ _
    have hnil : s = [] := List.eq_nil_of_length_eq_zero (Nat.le_zero.mp hk)
    subst hnil
    cases n <;> cases m <;> rfl
  | succ k ih =>
    intro s n m hk hn hm
    cases s with
    | nil => cases n <;> cases m <;> rfl
    | cons c rest =>
      simp only [List.length_cons] at hk hn hm
      obtain ⟨n', rfl⟩ : ∃ n', n = n' + 1 := ⟨n - 1, by omega⟩
      obtain ⟨m', rfl⟩ : ∃ m', m = m' + 1 := ⟨m - 1, by omega⟩
      by_cases hguard : old ≠ [] ∧ startsWith old (c :: rest) = true
      · have hpos : 0 < old.length := List.length_pos.mpr hguard.1
        rw [show replaceAllAux old (n' + 1) (c :: rest)
              = replaceAllAux old n' ((c :: rest).drop old.length) from by
            simp only [replaceAllAux]; rw [if_pos hguard],
          show replaceAllAux old (m' + 1) (c :: rest)
              = replaceAllAux old m' ((c :: rest).drop old.length) from by
            simp only [replaceAllAux]; rw [if_pos hguard]]
        have hlen : ((c :: rest).drop old.length).length ≤ k := by
          simp only [List.length_drop, List.length_cons]
          omega
        exact ih _ n' m' hlen
          (by simp only [List.length_drop, List.length_cons]; omega)
          (by simp only [List.length_drop, List.length_cons]; omega)
      · rw [show replaceAllAux old (n' + 1) (c :: rest)
              = c :: replaceAllAux old n' rest from by
            simp only [replaceAllAux]; rw [if_neg hguard],
          show replaceAllAux old (m' + 1) (c :: rest)
              = c :: replaceAllAux old m' rest from by
            simp only [replaceAllAux]; rw [if_neg hguard]]
        rw [ih rest n' m' (by omega) (by omega) (by omega)]

theorem replaceAll_cons_pos (old : Str) (c : Char) (rest : Str)
    (h : old ≠ [] ∧ startsWith old (c :: rest) = true) :
    replaceAll old (c :: rest) = replaceAll old ((c :: rest).drop old.length) := by
  have hpos : 0 < old.length := List.length_pos.mpr h.1
  show replaceAllAux old (c :: rest).length (c :: rest) = _
  rw [show (c :: rest).length = rest.length + 1 from rfl]
  rw [show replaceAllAux old (rest.length + 1) (c :: rest)
      = replaceAllAux old rest.length ((c :: rest).drop old.length) from by
    simp only [replaceAllAux]; rw [if_pos h]]
  exact replaceAllAux_congr old ((c :: rest).drop old.length).length _
    rest.length ((c :: rest).drop old.length).length (le_refl _)
    (by simp only [List.length_drop, List.length_cons]; omega) (le_refl _)

theorem replaceAll_cons_neg (old : Str) (c : Char) (rest : Str)
    (h : ¬ (old ≠ [] ∧ startsWith old (c :: rest) = true)) :
    replaceAll old (c :: rest) = c :: replaceAll old rest := by
  show replaceAllAux old (c :: rest).length (c :: rest) = _
  rw [show (c :: rest).length = rest.length + 1 from rfl]
  simp only [replaceAllAux]
  rw [if_neg h]
  rfl

theorem replaceAll_nil (old : Str) : replaceAll old [] = [] := rfl

theorem replaceAll_of_not_occurs (old s : Str) (h : occursIn old s = false) :
    replaceAll old s = s := by
  induction s with
  | nil => exact replaceAll_nil old
  | cons c rest ih =>
    simp only [occursIn, Bool.or_eq_false_iff] at h
    rw [replaceAll_cons_neg old c rest (by
      rintro ⟨-, hc⟩
      rw [h.1] at hc
      exact Bool.false_ne_true hc)]
    rw [ih h.2]

theorem replaceAll_append_self (old t : Str) (h : old ≠ []) :
    replaceAll old (old ++ t) = replaceAll old t := by
  cases old with
  | nil => exact absurd rfl h
  | cons x xs =>
    rw [List.cons_append, replaceAll_cons_pos (x :: xs) x (xs ++ t)
      ⟨h, by rw [← List.cons_append]; exact startsWith_append_self _ _⟩]
    have hd : (x :: (xs ++ t)).drop (x :: xs).length = t := by
      rw [← List.cons_append]
      exact List.drop_left _ _
    rw [hd]

theorem replaceAll_strip_head (old t : Str) (hne : old ≠ [])
    (h : occursIn old t = false) : replaceAll old (old ++ t) = t := by
  rw [replaceAll_append_self old t hne, replaceAll_of_not_occurs old t h]

theorem replaceAll_strip_ext (ext P : Str) (hne : ext ≠ [])
    (h : ∀ i, i < P.length → startsWith ext ((P ++ ext).drop i) = false) :
    replaceAll ext (P ++ ext) = P := by
  induction P with
  | nil =>
    have h1 := replaceAll_append_self ext [] hne
    simp only [List.append_nil] at h1
    rw [List.nil_append, h1]
    exact replaceAll_nil ext
  | cons c P' ih =>
    have h0 : startsWith ext (c :: (P' ++ ext)) = false := by
      have := h 0 (by simp)
      simpa using this
    rw [List.cons_append, replaceAll_cons_neg ext c (P' ++ ext) (by
      rintro ⟨-, hc⟩
      rw [h0] at hc
      exact Bool.false_ne_true hc)]
    rw [ih (fun i hi => by
      have := h (i + 1) (by simp only [List.length_cons]; omega)
      simpa using this)]

theorem splitOnce_no_slash (S : Str) (h : '/' ∉ S) : splitOnce S = (S, none) := by
  induction S with
  | nil => rfl
  | cons c rest ih =>
    simp only [List.mem_cons, not_or] at h
    rw [splitOnce, if_neg (fun hc => h.1 hc.symm), ih h.2]

theorem splitOnce_append (P R : Str) (h : '/' ∉ P) :
    splitOnce (P ++ '/' :: R) = (P, some R) := by
  induction P with
  | nil => simp [splitOnce]
  | cons c P' ih =>
    simp only [List.mem_cons, not_or] at h
    rw [List.cons_append, splitOnce, if_neg (fun hc => h.1 hc.symm), ih h.2]

/-! ### Normal form of `posixNormpath` and idempotence of normalization -/

/-- A component of a reduced path: nonempty, not `.`, slash-free. -/
def goodComp (c : Str) : Prop := c ≠ [] ∧ c ≠ dot ∧ '/' ∉ c

/-- The invariant of the component stack built by `npStep`: all components
good; for absolute paths no `..` survives, for relative paths the
surviving `..`s form a prefix of the stack. -/
def Reduced (abs : Bool) (l : List Str) : Prop :=
  (∀ c ∈ l, goodComp c) ∧
    (match abs with
     | true => dotdot ∉ l
     | false => ∃ k rest, l = List.replicate k dotdot ++ rest ∧ dotdot ∉ rest)

theorem reduced_nil (abs : Bool) : Reduced abs [] := by
  refine ⟨by simp, ?_⟩
  cases abs with
  | false => exact ⟨0, [], by simp, by simp⟩
  | true => show dotdot ∉ ([] : List Str); simp

theorem npStep_reduced {abs : Bool} {acc : List Str} {comp : Str}
    (hacc : Reduced abs acc) (hc : '/' ∉ comp) :
    Reduced abs (npStep abs acc comp) := by
  obtain ⟨hgood, hstruct⟩ := hacc
  unfold npStep
  by_cases h1 : comp = [] ∨ comp = dot
  · rw [if_pos h1]
    exact ⟨hgood, hstruct⟩
  · rw [if_neg h1]
    push_neg at h1
    by_cases h2 : comp ≠ dotdot ∨ (abs = false ∧ acc = []) ∨ acc.getLast? = some dotdot
    · rw [if_pos h2]
      have hgood2 : ∀ c ∈ acc ++ [comp], goodComp c := by
        intro c hcmem
        rcases List.mem_append.mp hcmem with h | h
        · exact hgood c h
        · rcases List.mem_singleton.mp h with rfl
          exact ⟨h1.1, h1.2, hc⟩
      refine ⟨hgood2, ?_⟩
      cases abs with
      | true =>
        have hstruct' : dotdot ∉ acc := hstruct
        have hcd : comp ≠ dotdot := by
          rcases h2 with h | ⟨h, -⟩ | h
          · exact h
          · exact absurd h (by decide)
          · exact absurd (List.mem_of_mem_getLast? h) hstruct'
        show dotdot ∉ acc ++ [comp]
        simp only [List.mem_append, List.mem_singleton, not_or]
        exact ⟨hstruct', fun h => hcd h.symm⟩
      | false =>
        obtain ⟨k, rest, rfl, hrest⟩ :
            ∃ k rest, acc = List.replicate k dotdot ++ rest ∧ dotdot ∉ rest := hstruct
        by_cases hcd : comp = dotdot
        · subst hcd
          have hrnil : rest = [] := by
            rcases h2 with h | ⟨-, hn⟩ | h
            · exact absurd rfl h
            · rcases List.append_eq_nil.mp hn with ⟨-, h⟩
              exact h
            · cases rest with
              | nil => rfl
              | cons r rs =>
                rw [List.getLast?_append] at h
                have hor : (r :: rs).getLast?.or (List.replicate k dotdot).getLast?
                    = some dotdot := h
                have hsome : (r :: rs).getLast? = some ((r :: rs).getLast (by simp)) :=
                  List.getLast?_eq_getLast _ _
                rw [hsome] at hor
                simp only [Option.or_some, Option.some.injEq] at hor
                exact absurd (hor ▸ List.getLast_mem (l := r :: rs) (by simp)) hrest
          subst hrnil
          show ∃ k2 rest2, _ = List.replicate k2 dotdot ++ rest2 ∧ dotdot ∉ rest2
          refine ⟨k + 1, [], ?_, by simp⟩
          rw [List.replicate_succ']
          simp
        · show ∃ k2 rest2, _ = List.replicate k2 dotdot ++ rest2 ∧ dotdot ∉ rest2
          exact ⟨k, rest ++ [comp], by rw [List.append_assoc],
            by simp only [List.mem_append, List.mem_singleton, not_or]
               exact ⟨hrest, fun h => hcd h.symm⟩⟩
    · rw [if_neg h2]
      push_neg at h2
      obtain ⟨hcd, hne, hlast⟩ := h2
      have hgood2 : ∀ c ∈ acc.dropLast, goodComp c := fun c h =>
        hgood c ((List.dropLast_sublist acc).subset h)
      refine ⟨hgood2, ?_⟩
      cases abs with
      | true =>
        have hstruct' : dotdot ∉ acc := hstruct
        show dotdot ∉ acc.dropLast
        exact fun h => hstruct' ((List.dropLast_sublist acc).subset h)
      | false =>
        obtain ⟨k, rest, rfl, hrest⟩ :
            ∃ k rest, acc = List.replicate k dotdot ++ rest ∧ dotdot ∉ rest := hstruct
        have hrne : rest ≠ [] := by
          intro hr
          subst hr
          cases k with
          | zero => exact (hne rfl) (by simp)
          | succ k' =>
            apply hlast
            rw [List.append_nil, List.replicate_succ', List.getLast?_concat]
        show ∃ k2 rest2, _ = List.replicate k2 dotdot ++ rest2 ∧ dotdot ∉ rest2
        rw [List.dropLast_append_of_ne_nil _ hrne]
        exact ⟨k, rest.dropLast, rfl,
          fun h => hrest ((List.dropLast_sublist rest).subset h)⟩

theorem foldl_npStep_reduced (abs : Bool) (comps : List Str)
    (h : ∀ c ∈ comps, '/' ∉ c) (acc : List Str) (hacc : Reduced abs acc) :
    Reduced abs (comps.foldl (npStep abs) acc) := by
  induction comps generalizing acc with
  | nil => exact hacc
  | cons c cs ih =>
    exact ih (fun d hd => h d (List.mem_cons_of_mem c hd))
      (npStep abs acc c) (npStep_reduced hacc (h c (List.mem_cons_self c cs)))

theorem splitSlash_ne_nil (p : Str) : splitSlash p ≠ [] := by
  cases p with
  | nil => simp [splitSlash]
  | cons c rest =>
    rw [splitSlash]
    by_cases h : c = '/'
    · rw [if_pos h]; simp
    · rw [if_neg h]
      cases hs : splitSlash rest with
      | nil => simp
      | cons a t => simp

theorem splitSlash_of_no_slash (c : Str) (h : '/' ∉ c) : splitSlash c = [c] := by
  induction c with
  | nil => rfl
  | cons a c' ih =>
    simp only [List.mem_cons, not_or] at h
    rw [splitSlash, if_neg (fun hc => h.1 hc.symm), ih h.2]

theorem splitSlash_cons_slash (t : Str) : splitSlash ('/' :: t) = [] :: splitSlash t := by
  rw [splitSlash, if_pos rfl]

theorem splitSlash_append_slash (c t : Str) (h : '/' ∉ c) :
    splitSlash (c ++ '/' :: t) = c :: splitSlash t := by
  induction c with
  | nil => simpa using splitSlash_cons_slash t
  | cons a c' ih =>
    simp only [List.mem_cons, not_or] at h
    rw [List.cons_append, splitSlash, if_neg (fun hc => h.1 hc.symm), ih h.2]

theorem splitSlash_join (comps : List Str) (hne : comps ≠ [])
    (h : ∀ c ∈ comps, '/' ∉ c) : splitSlash (joinSlash comps) = comps := by
  induction comps with
  | nil => exact absurd rfl hne
  | cons c cs ih =>
    cases cs with
    | nil => exact splitSlash_of_no_slash c (h c (by simp))
    | cons d t =>
      rw [show joinSlash (c :: d :: t) = c ++ '/' :: joinSlash (d :: t) from rfl]
      rw [splitSlash_append_slash _ _ (h c (by simp))]
      rw [ih (by simp) (fun x hx => h x (List.mem_cons_of_mem c hx))]

theorem splitSlash_no_slash (p : Str) : ∀ l ∈ splitSlash p, '/' ∉ l := by
  induction p with
  | nil =>
    intro l hl
    simp only [splitSlash, List.mem_singleton] at hl
    subst hl
    simp
  | cons c rest ih =>
    intro l hl
    by_cases h : c = '/'
    · subst h
      rw [splitSlash_cons_slash] at hl
      rcases List.mem_cons.mp hl with rfl | hl2
      · simp
      · exact ih l hl2
    · rw [splitSlash, if_neg h] at hl
      cases hs : splitSlash rest with
      | nil => exact absurd hs (splitSlash_ne_nil rest)
      | cons a t =>
        rw [hs] at hl
        rcases List.mem_cons.mp hl with rfl | hl2
        · intro hmem
          rcases List.mem_cons.mp hmem with hca | hma
          · exact h hca.symm
          · exact ih a (by rw [hs]; exact List.mem_cons_self a t) hma
        · exact ih l (by rw [hs]; exact List.mem_cons_of_mem a hl2)

theorem npStep_nil_comp (abs : Bool) (acc : List Str) : npStep abs acc [] = acc := by
  rw [npStep, if_pos (Or.inl rfl)]

theorem foldl_empties (abs : Bool) (s : Nat) (acc : List Str) :
    (List.replicate s ([] : Str)).foldl (npStep abs) acc = acc := by
  induction s generalizing acc with
  | zero => rfl
  | succ n ih =>
    rw [List.replicate_succ, List.foldl_cons, npStep_nil_comp]
    exact ih acc

theorem foldl_append_only (abs : Bool) (comps : List Str)
    (h : ∀ c ∈ comps, goodComp c ∧ c ≠ dotdot) (acc : List Str) :
    comps.foldl (npStep abs) acc = acc ++ comps := by
  induction comps generalizing acc with
  | nil => simp
  | cons c cs ih =>
    obtain ⟨⟨hne, hdot, -⟩, hdd⟩ := h c (by simp)
    rw [List.foldl_cons]
    rw [show npStep abs acc c = acc ++ [c] from by
      rw [npStep, if_neg (by push_neg; exact ⟨hne, hdot⟩), if_pos (Or.inl hdd)]]
    rw [ih (fun d hd => h d (List.mem_cons_of_mem c hd)) (acc ++ [c])]
    simp

theorem foldl_dotdots (k : Nat) : ∀ j,
    (List.replicate k dotdot).foldl (npStep false) (List.replicate j dotdot)
      = List.replicate (j + k) dotdot := by
  induction k with
  | zero => intro j; simp
  | succ n ih =>
    intro j
    rw [List.replicate_succ, List.foldl_cons]
    have hstep : npStep false (List.replicate j dotdot) dotdot
        = List.replicate (j + 1) dotdot := by
      rw [npStep, if_neg (by decide)]
      cases j with
      | zero => rw [if_pos (Or.inr (Or.inl ⟨rfl, rfl⟩))]; rfl
      | succ m =>
        rw [if_pos (Or.inr (Or.inr (by
          rw [List.replicate_succ', List.getLast?_concat])))]
        rw [← List.replicate_succ']
    rw [hstep, ih (j + 1)]
    congr 1
    omega

theorem foldl_reduced_id (abs : Bool) (comps : List Str) (h : Reduced abs comps) :
    comps.foldl (npStep abs) [] = comps := by
  obtain ⟨hgood, hstruct⟩ := h
  cases abs with
  | true =>
    have hdd : dotdot ∉ comps := hstruct
    have := foldl_append_only true comps
      (fun c hc => ⟨hgood c hc, fun hceq => hdd (hceq ▸ hc)⟩) []
    simpa using this
  | false =>
    obtain ⟨k, rest, rfl, hrest⟩ :
        ∃ k rest, comps = List.replicate k dotdot ++ rest ∧ dotdot ∉ rest := hstruct
    rw [List.foldl_append]
    rw [show (List.replicate k dotdot).foldl (npStep false) [] = List.replicate k dotdot
      from by simpa using foldl_dotdots k 0]
    exact foldl_append_only false rest
      (fun c hc => ⟨hgood c (List.mem_append_right _ hc), fun hceq => hrest (hceq ▸ hc)⟩)
      (List.replicate k dotdot)

/-- The part of `joinSlash (c :: cs)` that follows the first component. -/
def joinTail : List Str → Str
  | [] => []
  | l :: ls => '/' :: joinSlash (l :: ls)

theorem joinSlash_cons (a : Str) (cs : List Str) :
    joinSlash (a :: cs) = a ++ joinTail cs := by
  cases cs with
  | nil => simp [joinSlash, joinTail]
  | cons d t => rfl

theorem initialSlashes_render (s : Nat) (hs : s ≤ 2) (ch : Char) (hch : ch ≠ '/')
    (rest0 : Str) :
    initialSlashes (List.replicate s '/' ++ (ch :: rest0)) = s := by
  have hne : ('/' = ch) = False := by
    simp only [eq_iff_iff, iff_false]
    exact fun h => hch h.symm
  interval_cases s
  · show initialSlashes (ch :: rest0) = 0
    rw [initialSlashes, if_neg]
    show ¬ (decide ('/' = ch) && startsWith [] rest0) = true
    simp [hne]
  · show initialSlashes ('/' :: ch :: rest0) = 1
    rw [initialSlashes, if_pos (by rfl), if_neg]
    rintro ⟨h2, -⟩
    revert h2
    show ¬ (decide ('/' = '/') && (decide ('/' = ch) && startsWith [] (rest0))) = true
    simp [hne]
  · show initialSlashes ('/' :: '/' :: ch :: rest0) = 2
    rw [initialSlashes, if_pos (by rfl), if_pos]
    constructor
    · rfl
    · show ¬ (decide ('/' = '/') && (decide ('/' = '/') && (decide ('/' = ch)
        && startsWith [] rest0))) = true
      simp [hne]

theorem splitSlash_replicate_slashes (s : Nat) (t : Str) :
    splitSlash (List.replicate s '/' ++ t) = List.replicate s [] ++ splitSlash t := by
  induction s with
  | zero => simp
  | succ n ih =>
    rw [List.replicate_succ, List.cons_append, splitSlash_cons_slash, ih,
      List.replicate_succ, List.cons_append]

theorem initialSlashes_le_two (p : Str) : initialSlashes p ≤ 2 := by
  rw [initialSlashes]
  split
  · split
    · omega
    · omega
  · omega

theorem posixNormpath_eq (p : Str) (hp : p ≠ []) :
    posixNormpath p
      = npOut (initialSlashes p)
          ((splitSlash p).foldl (npStep (decide (0 < initialSlashes p))) []) := by
  rw [posixNormpath, if_neg hp]

theorem npOut_eq_of_ne_nil (s : Nat) (comps : List Str)
    (h : List.replicate s '/' ++ joinSlash comps ≠ []) :
    npOut s comps = List.replicate s '/' ++ joinSlash comps := by
  rw [npOut]
  exact if_neg h

theorem npOut_fixed (s : Nat) (comps : List Str) (hs : s ≤ 2)
    (hred : Reduced (decide (0 < s)) comps) :
    posixNormpath (npOut s comps) = npOut s comps := by
  cases comps with
  | nil =>
    interval_cases s
    · decide
    · decide
    · decide
  | cons c cs =>
    obtain ⟨hgood, hstruct⟩ := hred
    obtain ⟨hcne, hcdot, hcsl⟩ := hgood c (by simp)
    cases c with
    | nil => exact absurd rfl hcne
    | cons ch c' =>
      have hch : ch ≠ '/' := by
        intro h
        exact hcsl (by rw [h]; exact List.mem_cons_self '/' c')
      have hjoin : joinSlash ((ch :: c') :: cs) = ch :: (c' ++ joinTail cs) := by
        rw [joinSlash_cons, List.cons_append]
      have hout : npOut s ((ch :: c') :: cs)
          = List.replicate s '/' ++ (ch :: (c' ++ joinTail cs)) := by
        rw [npOut_eq_of_ne_nil s _ (by rw [hjoin]; simp), hjoin]
      rw [hout]
      have hne2 : List.replicate s '/' ++ (ch :: (c' ++ joinTail cs)) ≠ [] := by
        simp
      rw [posixNormpath_eq _ hne2]
      rw [initialSlashes_render s hs ch hch _]
      have hsplit : splitSlash (List.replicate s '/' ++ (ch :: (c' ++ joinTail cs)))
          = List.replicate s [] ++ splitSlash (joinSlash ((ch :: c') :: cs)) := by
        rw [splitSlash_replicate_slashes, hjoin]
      rw [hsplit]
      rw [splitSlash_join _ (by simp) (fun x hx => by
        rcases List.mem_cons.mp hx with rfl | hx2
        · exact hcsl
        · exact (hgood x (List.mem_cons_of_mem _ hx2)).2.2)]
      rw [List.foldl_append, foldl_empties]
      rw [foldl_reduced_id _ _ ⟨hgood, hstruct⟩]
      exact hout

theorem posixNormpath_reduced (p : Str) :
    Reduced (decide (0 < initialSlashes p))
      ((splitSlash p).foldl (npStep (decide (0 < initialSlashes p))) []) :=
  foldl_npStep_reduced _ _ (splitSlash_no_slash p) [] (reduced_nil _)

theorem posixNormpath_idem (p : Str) :
    posixNormpath (posixNormpath p) = posixNormpath p := by
  by_cases hp : p = []
  · subst hp
    decide
  · rw [posixNormpath_eq p hp]
    exact npOut_fixed _ _ (initialSlashes_le_two p) (posixNormpath_reduced p)

theorem letter_ne_slash {c : Char} (h : isLetterChar c) : c ≠ '/' := by
  rintro rfl
  rcases h with ⟨h1, -⟩ | ⟨h1, -⟩
  · exact absurd h1 (by decide)
  · exact absurd h1 (by decide)

theorem letter_ne_dot {c : Char} (h : isLetterChar c) : c ≠ '.' := by
  rintro rfl
  rcases h with ⟨h1, -⟩ | ⟨h1, -⟩
  · exact absurd h1 (by decide)
  · exact absurd h1 (by decide)

theorem driveSub_slash (t : Str) : driveSub ('/' :: t) = '/' :: t := by
  cases t with
  | nil => rfl
  | cons x r =>
    simp only [driveSub]
    rw [if_neg]
    rintro ⟨hl, -⟩
    exact letter_ne_slash hl rfl

theorem driveSub_fire (q : Str) (h : driveSub q ≠ q) :
    ∃ c1 rest, q = c1 :: ':' :: rest ∧ isLetterChar c1
      ∧ driveSub q = '/' :: c1 :: rest := by
  match q with
  | [] => exact absurd rfl h
  | [c] => exact absurd rfl h
  | c1 :: c2 :: rest =>
    by_cases hc : isLetterChar c1 ∧ c2 = ':'
    · obtain ⟨hl, rfl⟩ := hc
      refine ⟨c1, rest, rfl, hl, ?_⟩
      simp only [driveSub]
      rw [if_pos ⟨hl, trivial⟩]
    · exact absurd (by simp only [driveSub]; rw [if_neg hc]) h

theorem driveSub_idem (q : Str) : driveSub (driveSub q) = driveSub q := by
  by_cases h : driveSub q = q
  · rw [h]
    exact h
  · obtain ⟨c1, rest, hq, hl, hd⟩ := driveSub_fire q h
    rw [hd, driveSub_slash]

theorem mem_joinSlash {c : Char} {L : List Str} (h : c ∈ joinSlash L) :
    c = '/' ∨ ∃ l ∈ L, c ∈ l := by
  induction L with
  | nil => exact absurd h (by simp [joinSlash])
  | cons l ls ih =>
    cases ls with
    | nil => exact Or.inr ⟨l, by simp, h⟩
    | cons d t =>
      rw [show joinSlash (l :: d :: t) = l ++ '/' :: joinSlash (d :: t) from rfl] at h
      rcases List.mem_append.mp h with h1 | h1
      · exact Or.inr ⟨l, by simp, h1⟩
      · rcases List.mem_cons.mp h1 with rfl | h2
        · exact Or.inl rfl
        · rcases ih h2 with h3 | ⟨x, hx, hcx⟩
          · exact Or.inl h3
          · exact Or.inr ⟨x, List.mem_cons_of_mem l hx, hcx⟩

theorem npStep_subset {abs : Bool} {acc : List Str} {comp x : Str}
    (h : x ∈ npStep abs acc comp) : x ∈ acc ∨ x = comp := by
  rw [npStep] at h
  split at h
  · exact Or.inl h
  · split at h
    · rcases List.mem_append.mp h with h1 | h1
      · exact Or.inl h1
      · exact Or.inr (List.mem_singleton.mp h1)
    · exact Or.inl ((List.dropLast_sublist acc).subset h)

theorem foldl_npStep_subset {abs : Bool} {comps : List Str} {x : Str} :
    ∀ {acc : List Str}, x ∈ comps.foldl (npStep abs) acc → x ∈ acc ∨ x ∈ comps := by
  induction comps with
  | nil => exact fun h => Or.inl h
  | cons c cs ih =>
    intro acc h
    rcases ih h with h1 | h1
    · rcases npStep_subset h1 with h2 | h2
      · exact Or.inl h2
      · exact Or.inr (by rw [h2]; exact List.mem_cons_self c cs)
    · exact Or.inr (List.mem_cons_of_mem c h1)

theorem splitSlash_chars (p : Str) : ∀ l ∈ splitSlash p, ∀ c ∈ l, c ∈ p := by
  induction p with
  | nil =>
    intro l hl c hc
    simp only [splitSlash, List.mem_singleton] at hl
    subst hl
    exact absurd hc (by simp)
  | cons a rest ih =>
    intro l hl c hc
    by_cases h : a = '/'
    · subst h
      rw [splitSlash_cons_slash] at hl
      rcases List.mem_cons.mp hl with rfl | hl2
      · exact absurd hc (by simp)
      · exact List.mem_cons_of_mem _ (ih l hl2 c hc)
    · rw [splitSlash, if_neg h] at hl
      cases hs : splitSlash rest with
      | nil => exact absurd hs (splitSlash_ne_nil rest)
      | cons b t =>
        rw [hs] at hl
        rcases List.mem_cons.mp hl with rfl | hl2
        · rcases List.mem_cons.mp hc with rfl | hc2
          · exact List.mem_cons_self c rest
          · exact List.mem_cons_of_mem _
              (ih b (by rw [hs]; exact List.mem_cons_self b t) c hc2)
        · exact List.mem_cons_of_mem _
            (ih l (by rw [hs]; exact List.mem_cons_of_mem b hl2) c hc)

theorem posixNormpath_chars {c : Char} {p : Str} (h : c ∈ posixNormpath p) :
    c ∈ p ∨ c = '/' ∨ c = '.' := by
  by_cases hp : p = []
  · subst hp
    rw [show posixNormpath [] = dot from rfl] at h
    rcases List.mem_singleton.mp h with rfl
    exact Or.inr (Or.inr rfl)
  · rw [posixNormpath_eq p hp] at h
    set comps := (splitSlash p).foldl (npStep (decide (0 < initialSlashes p))) []
      with hcomps
    by_cases hout : List.replicate (initialSlashes p) '/' ++ joinSlash comps = []
    · rw [npOut, if_pos hout] at h
      rcases List.mem_singleton.mp h with rfl
      exact Or.inr (Or.inr rfl)
    · rw [npOut_eq_of_ne_nil _ _ hout] at h
      rcases List.mem_append.mp h with h1 | h1
      · exact Or.inr (Or.inl (List.eq_of_mem_replicate h1))
      · rcases mem_joinSlash h1 with h2 | ⟨l, hl, hcl⟩
        · exact Or.inr (Or.inl h2)
        · rcases foldl_npStep_subset (hcomps ▸ hl) with h3 | h3
          · exact absurd h3 (by simp)
          · exact Or.inl (splitSlash_chars p l h3 c hcl)

theorem driveSub_chars {c : Char} {q : Str} (h : c ∈ driveSub q) :
    c ∈ q ∨ c = '/' := by
  by_cases hd : driveSub q = q
  · rw [hd] at h
    exact Or.inl h
  · obtain ⟨c1, rest, hq, -, hfire⟩ := driveSub_fire q hd
    rw [hfire] at h
    rcases List.mem_cons.mp h with rfl | h2
    · exact Or.inr rfl
    · rcases List.mem_cons.mp h2 with rfl | h3
      · exact Or.inl (by rw [hq]; exact List.mem_cons_self _ _)
      · exact Or.inl (by rw [hq]; exact List.mem_cons_of_mem _ (List.mem_cons_of_mem _ h3))

theorem bsub_id (s : Str) (h : '\\' ∉ s) :
    s.map (fun c => if c = '\\' then '/' else c) = s := by
  induction s with
  | nil => rfl
  | cons c rest ih =>
    simp only [List.mem_cons, not_or] at h
    rw [List.map_cons, if_neg (fun hc => h.1 hc.symm), ih h.2]

theorem npOut_render (s : Nat) (ch : Char) (c' : Str) (cs : List Str) :
    npOut s ((ch :: c') :: cs)
      = List.replicate s '/' ++ (ch :: (c' ++ joinTail cs)) := by
  rw [npOut_eq_of_ne_nil _ _ (by rw [joinSlash_cons, List.cons_append]; simp),
    joinSlash_cons, List.cons_append]

theorem np_driveSub_np_fixed (p : Str) :
    posixNormpath (driveSub (posixNormpath p)) = driveSub (posixNormpath p) := by
  by_cases hd : driveSub (posixNormpath p) = posixNormpath p
  · rw [hd]
    exact posixNormpath_idem p
  · obtain ⟨c1, rest, hq, hl, hfire⟩ := driveSub_fire _ hd
    by_cases hp : p = []
    · exfalso
      rw [hp, show posixNormpath [] = dot from rfl] at hq
      simp [dot] at hq
    · have heq := posixNormpath_eq p hp
      have hred := posixNormpath_reduced p
      have hs2 := initialSlashes_le_two p
      rw [heq] at hq
      cases hc : (splitSlash p).foldl (npStep (decide (0 < initialSlashes p))) [] with
      | nil =>
        exfalso
        rw [hc] at hq
        interval_cases h : initialSlashes p
        · rw [show npOut 0 ([] : List Str) = dot from by decide] at hq
          simp only [dot, List.cons.injEq] at hq
          exact letter_ne_dot hl hq.1.symm
        · rw [show npOut 1 ([] : List Str) = ['/'] from by decide] at hq
          simp at hq
        · rw [show npOut 2 ([] : List Str) = ['/', '/'] from by decide] at hq
          simp only [List.cons.injEq] at hq
          exact absurd hq.2.1 (by decide)
      | cons c cs =>
        rw [hc] at hq hred
        obtain ⟨hgood, hstruct⟩ := hred
        obtain ⟨hcne, hcdot, hcsl⟩ := hgood c (by simp)
        cases c with
        | nil => exact absurd rfl hcne
        | cons ch c' =>
          rw [npOut_render] at hq
          interval_cases h : initialSlashes p
          · -- relative: the rendered head is the drive letter
            simp only [List.replicate, List.nil_append, List.cons.injEq] at hq
            obtain ⟨rfl, hq2⟩ := hq
            cases c' with
            | nil =>
              exfalso
              cases cs with
              | nil => simp [joinTail] at hq2
              | cons d t =>
                simp only [List.nil_append, joinTail, List.cons.injEq] at hq2
                exact absurd hq2.1 (by decide)
            | cons y u =>
              simp only [List.cons_append, List.cons.injEq] at hq2
              obtain ⟨rfl, hq3⟩ := hq2
              -- posixNormpath p = ch :: ':' :: (u ++ joinTail cs)
              have hnew : driveSub (posixNormpath p) = npOut 1 ((ch :: u) :: cs) := by
                rw [hfire, npOut_render, ← hq3]
                rfl
              have hrednew : Reduced (decide (0 < 1)) ((ch :: u) :: cs) := by
                refine ⟨?_, ?_⟩
                · intro x hx
                  rcases List.mem_cons.mp hx with rfl | hx2
                  · refine ⟨by simp, ?_, ?_⟩
                    · intro hxd
                      rw [show dot = ['.'] from rfl] at hxd
                      injection hxd with h1 h2
                      exact letter_ne_dot hl h1
                    · intro hsl
                      rcases List.mem_cons.mp hsl with h1 | h1
                      · exact letter_ne_slash hl h1.symm
                      · exact hcsl (List.mem_cons_of_mem ch
                          (List.mem_cons_of_mem ':' h1))
                  · exact hgood x (List.mem_cons_of_mem _ hx2)
                · show dotdot ∉ (ch :: u) :: cs
                  intro hdd
                  rcases List.mem_cons.mp hdd with h1 | h1
                  · rw [show dotdot = ['.', '.'] from rfl] at h1
                    injection h1 with h2 h3
                    exact letter_ne_dot hl h2.symm
                  · obtain ⟨k, rest2, hk, hrest2⟩ :
                        ∃ k rest2, (ch :: ':' :: u) :: cs
                          = List.replicate k dotdot ++ rest2 ∧ dotdot ∉ rest2 := hstruct
                    cases k with
                    | zero =>
                      rw [List.replicate, List.nil_append] at hk
                      exact hrest2 (hk ▸ List.mem_cons_of_mem _ h1)
                    | succ m =>
                      rw [List.replicate_succ, List.cons_append] at hk
                      injection hk with h2 h3
                      rw [show dotdot = ['.', '.'] from rfl] at h2
                      injection h2 with h4 h5
                      exact letter_ne_dot hl h4
              rw [hnew]
              exact npOut_fixed 1 _ (by omega) hrednew
          · simp only [List.replicate, List.cons_append, List.cons.injEq] at hq
            exact absurd (letter_ne_slash hl) (by simp [hq.1.symm])
          · simp only [List.replicate, List.cons_append, List.cons.injEq] at hq
            exact absurd (letter_ne_slash hl) (by simp [hq.1.symm])

theorem no_backslash_posixNormpath {p : Str} (h : '\\' ∉ p) :
    '\\' ∉ posixNormpath p := fun hmem => by
  rcases posixNormpath_chars hmem with h1 | h1 | h1
  · exact h h1
  · exact absurd h1 (by decide)
  · exact absurd h1 (by decide)

theorem no_backslash_driveSub {q : Str} (h : '\\' ∉ q) :
    '\\' ∉ driveSub q := fun hmem => by
  rcases driveSub_chars hmem with h1 | h1
  · exact h h1
  · exact absurd h1 (by decide)

theorem normalize_eq_of_no_backslash (p : Str) (h : '\\' ∉ p) :
    normalize_to_sublime_path p = driveSub (posixNormpath p) := by
  rw [normalize_to_sublime_path]
  exact bsub_id _ (no_backslash_driveSub (no_backslash_posixNormpath h))

theorem normalize_idem_aux (p : Str) (h : '\\' ∉ p) :
    normalize_to_sublime_path (normalize_to_sublime_path p)
      = normalize_to_sublime_path p := by
  have h1 := normalize_eq_of_no_backslash p h
  have hr : '\\' ∉ driveSub (posixNormpath p) :=
    no_backslash_driveSub (no_backslash_posixNormpath h)
  rw [h1, normalize_eq_of_no_backslash _ hr, np_driveSub_np_fixed p, driveSub_idem]

/-! ### Lemmas about the path ⇄ (package, resource) split -/

theorem startsWith_cons_ne {a b : Char} (h : a ≠ b) (as s : Str) :
    startsWith (a :: as) (b :: s) = false := by
  simp [startsWith, h]

theorem not_occurs_of_no_early (P : Str)
    (hext : ∀ i, i < P.length → startsWith extArchive ((P ++ extArchive).drop i) = false) :
    occursIn extArchive P = false := by
  cases hx : occursIn extArchive P with
  | false => rfl
  | true =>
    exfalso
    obtain ⟨l, r, hP⟩ := (occursIn_iff _ _).mp hx
    subst hP
    have hi : l.length < (l ++ extArchive ++ r).length := by
      simp [extArchive]
    have hfalse := hext l.length hi
    have hre : ((l ++ extArchive ++ r) ++ extArchive)
        = l ++ (extArchive ++ (r ++ extArchive)) := by
      simp [List.append_assoc]
    rw [hre, List.drop_left, startsWith_append_self] at hfalse
    exact absurd hfalse (by simp)

theorem search_split (root P R : Str)
    (hocc : occursIn (root ++ ['/']) (P ++ '/' :: R) = false) (hP : '/' ∉ P) :
    search_for_package_and_resource (root ++ '/' :: (P ++ '/' :: R)) root
      = .ok (replaceAll extArchive P, R) := by
  simp only [search_for_package_and_resource]
  have hstrip : replaceAll (root ++ ['/']) (root ++ '/' :: (P ++ '/' :: R))
      = P ++ '/' :: R := by
    rw [show root ++ '/' :: (P ++ '/' :: R) = (root ++ ['/']) ++ (P ++ '/' :: R)
      from by simp]
    exact replaceAll_strip_head _ _ (by simp) hocc
  rw [hstrip, splitOnce_append _ _ hP]

theorem search_single (root S : Str)
    (hocc : occursIn (root ++ ['/']) S = false) (hS : '/' ∉ S) :
    search_for_package_and_resource (root ++ '/' :: S) root = .error .valueError := by
  simp only [search_for_package_and_resource]
  have hstrip : replaceAll (root ++ ['/']) (root ++ '/' :: S) = S := by
    rw [show root ++ '/' :: S = (root ++ ['/']) ++ S from by simp]
    exact replaceAll_strip_head _ _ (by simp) hocc
  rw [hstrip, splitOnce_no_slash _ hS]

theorem absRootStep_skip (path root : Str) (acc : Option Str × Option Str)
    (h : startsWith root path = false) :
    absRootStep path root acc = .ok acc := by
  rw [absRootStep, if_neg]
  rw [h]
  exact Bool.false_ne_true

theorem absRootStep_hit (path root : Str) (acc : Option Str × Option Str)
    (h : startsWith root path = true) (pk res : Str)
    (hsearch : search_for_package_and_resource path root = .ok (pk, res)) :
    absRootStep path root acc = .ok (some pk, some res) := by
  rw [absRootStep, if_pos h, hsearch]

theorem absRootStep_err (path root : Str) (acc : Option Str × Option Str)
    (h : startsWith root path = true) (e : PyErr)
    (hsearch : search_for_package_and_resource path root = .error e) :
    absRootStep path root acc = .error e := by
  rw [absRootStep, if_pos h, hsearch]

theorem gparn_abs_steps (env : Env) (path : Str)
    (hnp : normalize_to_sublime_path path = path)
    (habs : startsWith ['/'] path = true) (hv : 3006 ≤ env.version) :
    get_package_and_resource_name env path
      = match absRootStep path (normalize_to_sublime_path env.packagesPath)
          (none, none) with
        | .error e => .error e
        | .ok acc =>
          match absRootStep path (normalize_to_sublime_path env.installedPackagesPath)
              acc with
          | .error e => .error e
          | .ok acc2 =>
            absRootStep path (normalize_to_sublime_path (execPackagesPath env)) acc2 := by
  simp only [get_package_and_resource_name]
  rw [hnp, if_pos habs]
  cases absRootStep path (normalize_to_sublime_path env.packagesPath) (none, none) with
  | error e => rfl
  | ok acc =>
    show (if 3006 ≤ env.version then
        match absRootStep path (normalize_to_sublime_path env.installedPackagesPath)
            acc with
        | Except.error e => Except.error e
        | Except.ok acc2 =>
          absRootStep path (normalize_to_sublime_path (execPackagesPath env)) acc2
      else Except.ok acc) = _
    rw [if_pos hv]

theorem gparn_rel (env : Env) (P R : Str)
    (hnp : normalize_to_sublime_path (pkgsSlash ++ (P ++ '/' :: R))
      = pkgsSlash ++ (P ++ '/' :: R))
    (hP : '/' ∉ P) :
    get_package_and_resource_name env (pkgsSlash ++ (P ++ '/' :: R))
      = .ok (some P, some R) := by
  simp only [get_package_and_resource_name]
  rw [hnp]
  rw [if_neg (by
    rw [show startsWith ['/'] (pkgsSlash ++ (P ++ '/' :: R)) = false from rfl]
    exact Bool.false_ne_true)]
  rw [if_pos (startsWith_append_self pkgsSlash _)]
  rw [List.drop_left pkgsSlash _]
  rw [splitOnce_append _ _ hP]

theorem gparn_abs_compute (env : Env) (path : Str) (a1 a2 : Option Str × Option Str)
    (res : Except PyErr (Option Str × Option Str))
    (hnp : normalize_to_sublime_path path = path)
    (habs : startsWith ['/'] path = true) (hv : 3006 ≤ env.version)
    (h1 : absRootStep path (normalize_to_sublime_path env.packagesPath) (none, none)
      = .ok a1)
    (h2 : absRootStep path (normalize_to_sublime_path env.installedPackagesPath) a1
      = .ok a2)
    (h3 : absRootStep path (normalize_to_sublime_path (execPackagesPath env)) a2
      = res) :
    get_package_and_resource_name env path = res := by
  rw [gparn_abs_steps env path hnp habs hv, h1]
  show (match absRootStep path (normalize_to_sublime_path env.installedPackagesPath)
      a1 with
    | Except.error e => Except.error e
    | Except.ok acc2 =>
      absRootStep path (normalize_to_sublime_path (execPackagesPath env)) acc2) = res
  rw [h2]
  exact h3

theorem gparn_abs_compute_err1 (env : Env) (path : Str) (e : PyErr)
    (hnp : normalize_to_sublime_path path = path)
    (habs : startsWith ['/'] path = true) (hv : 3006 ≤ env.version)
    (h1 : absRootStep path (normalize_to_sublime_path env.packagesPath) (none, none)
      = .error e) :
    get_package_and_resource_name env path = .error e := by
  rw [gparn_abs_steps env path hnp habs hv, h1]

theorem gparn_abs_compute_err2 (env : Env) (path : Str)
    (a1 : Option Str × Option Str) (e : PyErr)
    (hnp : normalize_to_sublime_path path = path)
    (habs : startsWith ['/'] path = true) (hv : 3006 ≤ env.version)
    (h1 : absRootStep path (normalize_to_sublime_path env.packagesPath) (none, none)
      = .ok a1)
    (h2 : absRootStep path (normalize_to_sublime_path env.installedPackagesPath) a1
      = .error e) :
    get_package_and_resource_name env path = .error e := by
  rw [gparn_abs_steps env path hnp habs hv, h1]
  show (match absRootStep path (normalize_to_sublime_path env.installedPackagesPath)
      a1 with
    | Except.error e => Except.error e
    | Except.ok acc2 =>
      absRootStep path (normalize_to_sublime_path (execPackagesPath env)) acc2)
    = Except.error e
  rw [h2]

/-! ### Claim theorems -/

/-- C1 (amended): for canonical inputs — a package name `P` that is a single
slash-free segment in which the archive extension `.sublime-package` never
occurs (in particular `P` does not end in it), a canonical resource path
`R` (a fixed point of normalization), canonical absolute roots that are
fixed points of normalization, none of which is a prefix of another root's
joined path, and with the root prefix occurring only at the start of the
joined path — splitting `root + "/" + P + "/" + R` (for the unpacked root),
`root + "/" + P + ".sublime-package" + "/" + R` (for the two archive
roots), or the relative `"Packages/" + P + "/" + R` with
`get_package_and_resource_name` returns exactly `(P, R)`, where
`R = canonicalize R` by hypothesis.  The original claim, quantified over
all `P` and `R`, is false (see the counterexample): the split strips every
occurrence of `.sublime-package` from the package component, so a package
name containing the extension is not returned verbatim. -/
theorem C1_roundtrip_amended (env : Env) (P R : Str)
    (hv : 3006 ≤ env.version)
    (hP : '/' ∉ P)
    (hR : normalize_to_sublime_path R = R)
    (hext : ∀ i, i < P.length →
      startsWith extArchive ((P ++ extArchive).drop i) = false)
    (hn1 : normalize_to_sublime_path env.packagesPath = env.packagesPath)
    (hn2 : normalize_to_sublime_path env.installedPackagesPath
      = env.installedPackagesPath)
    (hn3 : normalize_to_sublime_path (execPackagesPath env) = execPackagesPath env)
    (habs1 : startsWith ['/'] env.packagesPath = true)
    (hocc1 : occursIn (env.packagesPath ++ ['/']) (P ++ '/' :: R) = false)
    (hocc2 : occursIn (env.installedPackagesPath ++ ['/'])
      ((P ++ extArchive) ++ '/' :: R) = false)
    (hocc3 : occursIn (execPackagesPath env ++ ['/'])
      ((P ++ extArchive) ++ '/' :: R) = false)
    (habs2 : startsWith ['/'] env.installedPackagesPath = true)
    (habs3 : startsWith ['/'] (execPackagesPath env) = true)
    (hno21 : startsWith env.installedPackagesPath
      (env.packagesPath ++ '/' :: (P ++ '/' :: R)) = false)
    (hno31 : startsWith (execPackagesPath env)
      (env.packagesPath ++ '/' :: (P ++ '/' :: R)) = false)
    (hno12 : startsWith env.packagesPath
      (env.installedPackagesPath ++ '/' :: ((P ++ extArchive) ++ '/' :: R)) = false)
    (hno32 : startsWith (execPackagesPath env)
      (env.installedPackagesPath ++ '/' :: ((P ++ extArchive) ++ '/' :: R)) = false)
    (hno13 : startsWith env.packagesPath
      (execPackagesPath env ++ '/' :: ((P ++ extArchive) ++ '/' :: R)) = false)
    (hno23 : startsWith env.installedPackagesPath
      (execPackagesPath env ++ '/' :: ((P ++ extArchive) ++ '/' :: R)) = false)
    (hnp1 : normalize_to_sublime_path (env.packagesPath ++ '/' :: (P ++ '/' :: R))
      = env.packagesPath ++ '/' :: (P ++ '/' :: R))
    (hnp2 : normalize_to_sublime_path
        (env.installedPackagesPath ++ '/' :: ((P ++ extArchive) ++ '/' :: R))
      = env.installedPackagesPath ++ '/' :: ((P ++ extArchive) ++ '/' :: R))
    (hnp3 : normalize_to_sublime_path
        (execPackagesPath env ++ '/' :: ((P ++ extArchive) ++ '/' :: R))
      = execPackagesPath env ++ '/' :: ((P ++ extArchive) ++ '/' :: R))
    (hnp4 : normalize_to_sublime_path (pkgsSlash ++ (P ++ '/' :: R))
      = pkgsSlash ++ (P ++ '/' :: R)) :
    get_package_and_resource_name env (env.packagesPath ++ '/' :: (P ++ '/' :: R))
      = .ok (some P, some R)
    ∧ get_package_and_resource_name env
        (env.installedPackagesPath ++ '/' :: ((P ++ extArchive) ++ '/' :: R))
      = .ok (some P, some R)
    ∧ get_package_and_resource_name env
        (execPackagesPath env ++ '/' :: ((P ++ extArchive) ++ '/' :: R))
      = .ok (some P, some R)
    ∧ get_package_and_resource_name env (pkgsSlash ++ (P ++ '/' :: R))
      = .ok (some P, some R) := by
  have hPstrip : replaceAll extArchive P = P :=
    replaceAll_of_not_occurs _ _ (not_occurs_of_no_early P hext)
  have hPext : replaceAll extArchive (P ++ extArchive) = P :=
    replaceAll_strip_ext _ _ (by decide) hext
  have hPextsl : '/' ∉ P ++ extArchive := by
    intro h
    rcases List.mem_append.mp h with h1 | h1
    · exact hP h1
    · exact absurd h1 (by decide)
  refine ⟨?_, ?_, ?_, ?_⟩
  · exact gparn_abs_compute env _ (some P, some R) (some P, some R) _
      hnp1 (startsWith_extend _ _ _ habs1) hv
      (by rw [hn1]
          exact absRootStep_hit _ _ _ (startsWith_append_self _ _) P R
            (by rw [search_split _ _ _ hocc1 hP, hPstrip]))
      (by rw [hn2]; exact absRootStep_skip _ _ _ hno21)
      (by rw [hn3]; exact absRootStep_skip _ _ _ hno31)
  · exact gparn_abs_compute env _ (none, none) (some P, some R) _
      hnp2 (startsWith_extend _ _ _ habs2) hv
      (by rw [hn1]; exact absRootStep_skip _ _ _ hno12)
      (by rw [hn2]
          exact absRootStep_hit _ _ _ (startsWith_append_self _ _) P R
            (by rw [search_split _ _ _ hocc2 hPextsl, hPext]))
      (by rw [hn3]; exact absRootStep_skip _ _ _ hno32)
  · exact gparn_abs_compute env _ (none, none) (none, none) _
      hnp3 (startsWith_extend _ _ _ habs3) hv
      (by rw [hn1]; exact absRootStep_skip _ _ _ hno13)
      (by rw [hn2]; exact absRootStep_skip _ _ _ hno23)
      (by rw [hn3]
          exact absRootStep_hit _ _ _ (startsWith_append_self _ _) P R
            (by rw [search_split _ _ _ hocc3 hPextsl, hPext]))
  · exact gparn_rel env P R hnp4 hP

/-- Environment used by the C1 counterexample and witness. -/
def envC1 : Env :=
  { version := 3126
    packagesPath := "/pp".data
    installedPackagesPath := "/ip".data
    executablePath := "/ex/st".data
    ignoredPackages := [] }

/-- C1 counterexample: with the unpacked root `/pp`, the joined absolute
path of the package `A.sublime-package` (a legal unpacked-directory name)
and the resource `x.py` is `/pp/A.sublime-package/x.py`, but
`get_package_and_resource_name` returns the package name `A`, not
`A.sublime-package`: the claimed round trip fails because every occurrence
of the archive extension is stripped from the package component. -/
theorem C1_counterexample :
    envC1.packagesPath ++ '/' :: ("A.sublime-package".data ++ '/' :: "x.py".data)
      = "/pp/A.sublime-package/x.py".data
    ∧ get_package_and_resource_name envC1 ("/pp/A.sublime-package/x.py".data)
      = .ok (some "A".data, some "x.py".data)
    ∧ ("A".data : Str) ≠ "A.sublime-package".data := by
  refine ⟨by decide, by decide, by decide⟩

/-- C1 witness: the amended round-trip theorem applied to the concrete
environment `envC1`, package `A` and resource `r.py`. -/
theorem C1_witness :
    get_package_and_resource_name envC1
        (envC1.packagesPath ++ '/' :: ("A".data ++ '/' :: "r.py".data))
      = .ok (some "A".data, some "r.py".data)
    ∧ get_package_and_resource_name envC1
        (envC1.installedPackagesPath ++ '/' :: (("A".data ++ extArchive) ++ '/' :: "r.py".data))
      = .ok (some "A".data, some "r.py".data)
    ∧ get_package_and_resource_name envC1
        (execPackagesPath envC1 ++ '/' :: (("A".data ++ extArchive) ++ '/' :: "r.py".data))
      = .ok (some "A".data, some "r.py".data)
    ∧ get_package_and_resource_name envC1 (pkgsSlash ++ ("A".data ++ '/' :: "r.py".data))
      = .ok (some "A".data, some "r.py".data) :=
  C1_roundtrip_amended envC1 "A".data "r.py".data
    (by decide) (by decide) (by decide) (by decide) (by decide) (by decide)
    (by decide) (by decide) (by decide) (by decide) (by decide) (by decide)
    (by decide) (by decide) (by decide) (by decide) (by decide) (by decide)
    (by decide) (by decide) (by decide) (by decide) (by decide)

/-- C2 (corrected): the claim is false.  For an absolute input that equals
a root plus a single trailing segment (no nested resource),
`_search_for_package_and_resource` executes
`package, resource = re.split(r"/", relative_package_path, 1)` on a
string with no separator, and the one-element unpacking raises
`ValueError`; `get_package_and_resource_name` therefore propagates an
error instead of returning the package name with an absent resource.
This holds under each of the three roots, for canonical inputs. -/
theorem C2_single_segment_raises (env : Env) (S : Str)
    (hv : 3006 ≤ env.version) (hS : '/' ∉ S)
    (hn1 : normalize_to_sublime_path env.packagesPath = env.packagesPath)
    (hn2 : normalize_to_sublime_path env.installedPackagesPath
      = env.installedPackagesPath)
    (hn3 : normalize_to_sublime_path (execPackagesPath env) = execPackagesPath env)
    (habs1 : startsWith ['/'] env.packagesPath = true)
    (habs2 : startsWith ['/'] env.installedPackagesPath = true)
    (habs3 : startsWith ['/'] (execPackagesPath env) = true)
    (hocc1 : occursIn (env.packagesPath ++ ['/']) S = false)
    (hocc2 : occursIn (env.installedPackagesPath ++ ['/']) S = false)
    (hocc3 : occursIn (execPackagesPath env ++ ['/']) S = false)
    (hno12 : startsWith env.packagesPath
      (env.installedPackagesPath ++ '/' :: S) = false)
    (hno13 : startsWith env.packagesPath (execPackagesPath env ++ '/' :: S) = false)
    (hno23 : startsWith env.installedPackagesPath
      (execPackagesPath env ++ '/' :: S) = false)
    (hnp1 : normalize_to_sublime_path (env.packagesPath ++ '/' :: S)
      = env.packagesPath ++ '/' :: S)
    (hnp2 : normalize_to_sublime_path (env.installedPackagesPath ++ '/' :: S)
      = env.installedPackagesPath ++ '/' :: S)
    (hnp3 : normalize_to_sublime_path (execPackagesPath env ++ '/' :: S)
      = execPackagesPath env ++ '/' :: S) :
    get_package_and_resource_name env (env.packagesPath ++ '/' :: S)
      = .error .valueError
    ∧ get_package_and_resource_name env (env.installedPackagesPath ++ '/' :: S)
      = .error .valueError
    ∧ get_package_and_resource_name env (execPackagesPath env ++ '/' :: S)
      = .error .valueError := by
  refine ⟨?_, ?_, ?_⟩
  · exact gparn_abs_compute_err1 env _ _ hnp1 (startsWith_extend _ _ _ habs1) hv
      (by rw [hn1]
          exact absRootStep_err _ _ _ (startsWith_append_self _ _) _
            (search_single _ _ hocc1 hS))
  · exact gparn_abs_compute_err2 env _ (none, none) _ hnp2
      (startsWith_extend _ _ _ habs2) hv
      (by rw [hn1]; exact absRootStep_skip _ _ _ hno12)
      (by rw [hn2]
          exact absRootStep_err _ _ _ (startsWith_append_self _ _) _
            (search_single _ _ hocc2 hS))
  · exact gparn_abs_compute env _ (none, none) (none, none) _ hnp3
      (startsWith_extend _ _ _ habs3) hv
      (by rw [hn1]; exact absRootStep_skip _ _ _ hno13)
      (by rw [hn2]; exact absRootStep_skip _ _ _ hno23)
      (by rw [hn3]
          exact absRootStep_err _ _ _ (startsWith_append_self _ _) _
            (search_single _ _ hocc3 hS))

/-- Environment used by the C2 counterexample and witness. -/
def envC2 : Env :=
  { version := 3126
    packagesPath := "/qq".data
    installedPackagesPath := "/iq".data
    executablePath := "/eq/st".data
    ignoredPackages := [] }

/-- C2 counterexample: the path `/iq/Absolute.sublime-package` is exactly
the installed-archive root `/iq` plus a single trailing segment, yet
`get_package_and_resource_name` raises `ValueError` instead of returning
`("Absolute", None)` as the claim states. -/
theorem C2_counterexample :
    envC2.installedPackagesPath ++ '/' :: "Absolute.sublime-package".data
      = "/iq/Absolute.sublime-package".data
    ∧ get_package_and_resource_name envC2 ("/iq/Absolute.sublime-package".data)
      = .error .valueError
    ∧ get_package_and_resource_name envC2 ("/iq/Absolute.sublime-package".data)
      ≠ .ok (some "Absolute".data, none) := by
  refine ⟨by decide, by decide, by decide⟩

/-- C2 witness: the corrected theorem applied to the concrete environment
`envC2` and the single segment `Absolute.sublime-package`. -/
theorem C2_witness :
    get_package_and_resource_name envC2
        (envC2.packagesPath ++ '/' :: "Absolute.sublime-package".data)
      = .error .valueError
    ∧ get_package_and_resource_name envC2
        (envC2.installedPackagesPath ++ '/' :: "Absolute.sublime-package".data)
      = .error .valueError
    ∧ get_package_and_resource_name envC2
        (execPackagesPath envC2 ++ '/' :: "Absolute.sublime-package".data)
      = .error .valueError :=
  C2_single_segment_raises envC2 "Absolute.sublime-package".data
    (by decide) (by decide) (by decide) (by decide) (by decide) (by decide)
    (by decide) (by decide) (by decide) (by decide) (by decide) (by decide)
    (by decide) (by decide) (by decide) (by decide) (by decide)

/-- C3 (corrected): the claim is false.  The relative branch of
`get_package_and_resource_name` (lines 186-191) performs no archive
extension stripping: for a relative `Packages/<name>.sublime-package/<res>`
input the package-name component is returned verbatim, extension
included — the `.sublime-package` replacement happens only in the helper
used by the absolute branch.  Amended statement: for a slash-free name `Q`
and canonical input, the relative split returns
`(Q ++ ".sublime-package", R)` unchanged. -/
theorem C3_relative_ext_not_stripped (env : Env) (Q R : Str)
    (hQ : '/' ∉ Q)
    (hnp : normalize_to_sublime_path (pkgsSlash ++ ((Q ++ extArchive) ++ '/' :: R))
      = pkgsSlash ++ ((Q ++ extArchive) ++ '/' :: R)) :
    get_package_and_resource_name env (pkgsSlash ++ ((Q ++ extArchive) ++ '/' :: R))
      = .ok (some (Q ++ extArchive), some R) := by
  apply gparn_rel env (Q ++ extArchive) R hnp
  intro h
  rcases List.mem_append.mp h with h1 | h1
  · exact hQ h1
  · exact absurd h1 (by decide)

/-- Environment used by the C3 counterexample and witness. -/
def envC3 : Env :=
  { version := 3126
    packagesPath := "/rr".data
    installedPackagesPath := "/ir".data
    executablePath := "/er/st".data
    ignoredPackages := [] }

/-- C3 counterexample: for the relative input
`Packages/Foo.sublime-package/x.py` the claim says the returned package
name is `Foo` (extension stripped), but the code returns
`Foo.sublime-package`. -/
theorem C3_counterexample :
    get_package_and_resource_name envC3 ("Packages/Foo.sublime-package/x.py".data)
      = .ok (some "Foo.sublime-package".data, some "x.py".data)
    ∧ ("Foo.sublime-package".data : Str) ≠ "Foo".data := by
  refine ⟨by decide, by decide⟩

/-- C3 witness: the amended theorem applied to the name `Foo` and resource
`x.py`. -/
theorem C3_witness :
    get_package_and_resource_name envC3
        (pkgsSlash ++ (("Foo".data ++ extArchive) ++ '/' :: "x.py".data))
      = .ok (some ("Foo".data ++ extArchive), some "x.py".data) :=
  C3_relative_ext_not_stripped envC3 "Foo".data "x.py".data (by decide) (by decide)

/-- C4 (amended): normalization is idempotent on every input that contains
no backslash, and the Windows drive-letter examples behave as stated:
`C:\A\b.txt` maps to `/C/A/b.txt` and `/C/A/b.txt` is a fixed point.  The
original claim, idempotence for every input string, is false (see the
counterexample): backslashes are turned into forward slashes only after
`normpath` runs, so the slashes they produce are collapsed or stripped
only by a second normalization. -/
theorem C4_idempotent_on_backslash_free :
    (∀ p : Str, '\\' ∉ p →
      normalize_to_sublime_path (normalize_to_sublime_path p)
        = normalize_to_sublime_path p)
    ∧ normalize_to_sublime_path ("C:\\A\\b.txt".data) = "/C/A/b.txt".data
    ∧ normalize_to_sublime_path ("/C/A/b.txt".data) = "/C/A/b.txt".data :=
  ⟨normalize_idem_aux, by decide, by decide⟩

/-- C4 counterexample: for the two-character input `a\` normalization is
not idempotent: one pass yields `a/` (the backslash becomes a trailing
slash after `normpath` already ran), a second pass yields `a`. -/
theorem C4_counterexample :
    normalize_to_sublime_path ("a\\".data) = "a/".data
    ∧ normalize_to_sublime_path (normalize_to_sublime_path ("a\\".data)) = "a".data
    ∧ normalize_to_sublime_path (normalize_to_sublime_path ("a\\".data))
      ≠ normalize_to_sublime_path ("a\\".data) := by
  refine ⟨by decide, by decide, by decide⟩

/-- C4 witness: idempotence at the backslash-free input `C/A/b.txt`. -/
theorem C4_witness :
    ('\\' ∉ ("C/A/b.txt".data : Str))
    ∧ normalize_to_sublime_path (normalize_to_sublime_path ("C/A/b.txt".data))
      = normalize_to_sublime_path ("C/A/b.txt".data) :=
  ⟨by decide, C4_idempotent_on_backslash_free.1 _ (by decide)⟩

/-! ### Lemmas about sorting, set semantics and the ignore list -/

theorem strLe_total (a b : Str) : strLe a b = true ∨ strLe b a = true := by
  induction a generalizing b with
  | nil => exact Or.inl rfl
  | cons x xs ih =>
    cases b with
    | nil => exact Or.inr rfl
    | cons y ys =>
      by_cases hxy : x = y
      · subst hxy
        rcases ih ys with h | h
        · exact Or.inl (by simp [strLe, h])
        · exact Or.inr (by simp [strLe, h])
      · rcases lt_or_gt_of_ne hxy with h | h
        · exact Or.inl (by simp [strLe, hxy, h])
        · exact Or.inr (by simp [strLe, Ne.symm hxy, h])

theorem strLe_trans (a b c : Str) (h1 : strLe a b = true) (h2 : strLe b c = true) :
    strLe a c = true := by
  induction a generalizing b c with
  | nil => rfl
  | cons x xs ih =>
    cases b with
    | nil => simp [strLe] at h1
    | cons y ys =>
      cases c with
      | nil => simp [strLe] at h2
      | cons z zs =>
        by_cases hxy : x = y <;> by_cases hyz : y = z
        · subst hxy; subst hyz
          simp only [strLe, if_pos rfl] at h1 h2 ⊢
          exact ih ys zs h1 h2
        · subst hxy
          simp only [strLe, if_pos rfl, if_neg hyz] at h2 ⊢
          exact h2
        · subst hyz
          simp only [strLe, if_neg hxy] at h1 ⊢
          exact h1
        · simp only [strLe, if_neg hxy, decide_eq_true_eq] at h1
          simp only [strLe, if_neg hyz, decide_eq_true_eq] at h2
          have hxz : x < z := lt_trans h1 h2
          rw [strLe, if_neg (by intro hc; subst hc; exact absurd h2 (not_lt_of_gt h1))]
          simp [hxz]

instance : IsTotal Str strLeP := ⟨fun a b => strLe_total a b⟩

instance : IsTrans Str strLeP := ⟨fun a b c => strLe_trans a b c⟩

theorem pySorted_sorted (l : List Str) : List.Sorted strLeP (pySorted l) :=
  List.sorted_insertionSort strLeP l

theorem pySorted_perm (l : List Str) : (pySorted l).Perm l :=
  List.perm_insertionSort strLeP l

theorem setUpdate_nodup (l : List Str) : ∀ s : List Str, s.Nodup →
    (setUpdate s l).Nodup := by
  induction l with
  | nil => exact fun s hs => hs
  | cons x xs ih =>
    intro s hs
    simp only [setUpdate, List.foldl_cons]
    apply ih
    by_cases hx : x ∈ s
    · rw [if_pos hx]
      exact hs
    · rw [if_neg hx]
      exact (List.perm_append_singleton x s).symm.nodup (List.nodup_cons.mpr ⟨hx, hs⟩)

theorem foldl_erase_nodup (L : List Str) : ∀ s : List Str, s.Nodup →
    (L.foldl (fun st i => st.erase i) s).Nodup := by
  induction L with
  | nil => exact fun s hs => hs
  | cons j T ih =>
    intro s hs
    simp only [List.foldl_cons]
    exact ih _ (hs.erase j)

theorem not_mem_foldl_erase_mono (L : List Str) (i : Str) : ∀ s : List Str,
    i ∉ s → i ∉ L.foldl (fun st x => st.erase x) s := by
  induction L with
  | nil => exact fun s hs => hs
  | cons j T ih =>
    intro s hs
    simp only [List.foldl_cons]
    exact ih _ (fun hmem => hs (List.mem_of_mem_erase hmem))

theorem mem_ignored_not_in_foldl (L : List Str) (i : Str) (hi : i ∈ L) :
    ∀ s : List Str, s.Nodup → i ∉ L.foldl (fun st x => st.erase x) s := by
  induction L with
  | nil => exact absurd hi (by simp)
  | cons j T ih =>
    intro s hs
    simp only [List.foldl_cons]
    rcases List.mem_cons.mp hi with rfl | hi2
    · apply not_mem_foldl_erase_mono
      intro hmem
      exact ((hs.mem_erase_iff).mp hmem).1 rfl
    · exact ih hi2 _ (hs.erase j)

theorem get_packages_list_ok (env : Env) (fs : FS) (ig : Bool) (out : List Str)
    (h : get_packages_list env fs ig = .ok out) :
    ∃ s3 : List Str, s3.Nodup
      ∧ out = pySorted (if ig then
          env.ignoredPackages.foldl (fun st i => st.erase i) s3 else s3) := by
  unfold get_packages_list at h
  split at h
  · exact absurd h (by simp)
  · rename_i l1 heq1
    split at h
    · split at h
      · exact absurd h (by simp)
      · rename_i l2 heq2
        split at h
        · exact absurd h (by simp)
        · rename_i l3 heq3
          refine ⟨setUpdate (setUpdate (setUpdate [] l1) l2) l3,
            setUpdate_nodup l3 _ (setUpdate_nodup l2 _
              (setUpdate_nodup l1 [] List.nodup_nil)), ?_⟩
          rcases h with h
          simp only [Except.ok.injEq] at h
          exact h.symm
    · refine ⟨setUpdate [] l1, setUpdate_nodup l1 [] List.nodup_nil, ?_⟩
      rcases h with h
      simp only [Except.ok.injEq] at h
      exact h.symm

/-- C5 (corrected): the claim is false.  `_get_packages_from_directory`
calls `os.listdir(directory)` without any existence check, so when a root
directory that `get_packages_list` consults does not exist the call raises
`FileNotFoundError` instead of treating the root as contributing no
packages.  (The unpacked root is always consulted; the installed and
executable-adjacent roots only on hosts of version 3006 and newer.) -/
theorem C5_missing_root_raises (env : Env) (fs : FS) (ig : Bool)
    (h : fs.ex env.packagesPath = false
      ∨ (3006 ≤ env.version ∧ (fs.ex env.installedPackagesPath = false
          ∨ fs.ex (execPackagesPath env) = false))) :
    get_packages_list env fs ig = .error .fileNotFound := by
  unfold get_packages_list get_packages_from_directory pyListdir
  by_cases hex1 : fs.ex env.packagesPath = true
  · rcases h with h1 | ⟨hv, h2⟩
    · rw [hex1] at h1
      exact absurd h1 (by simp)
    · simp only [hex1, if_true, if_pos hv]
      by_cases hex2 : fs.ex env.installedPackagesPath = true
      · rcases h2 with h2a | h2b
        · rw [hex2] at h2a
          exact absurd h2a (by simp)
        · simp [hex2, h2b]
      · have hex2' : fs.ex env.installedPackagesPath = false :=
          Bool.not_eq_true _ ▸ Bool.eq_false_iff.mpr hex2
        simp [hex2']
  · have hex1' : fs.ex env.packagesPath = false :=
      Bool.not_eq_true _ ▸ Bool.eq_false_iff.mpr hex1
    simp [hex1']

/-- Environment and filesystem used by the C5 counterexample. -/
def envC5 : Env :=
  { version := 3126
    packagesPath := "/p5".data
    installedPackagesPath := "/i5".data
    executablePath := "/e5/st".data
    ignoredPackages := [] }

/-- A filesystem on which no path exists at all. -/
def fsC5 : FS :=
  { ex := fun _ => false
    listdir := fun _ => []
    readText := fun _ _ => []
    readBin := fun _ => []
    zipNamelist := fun _ => []
    zipBytes := fun _ _ => []
    zipExtract := fun _ _ => []
    decode := fun _ b => b
    loadResource := fun _ => none
    treeAt := fun _ => .node [] [] }

/-- C5 counterexample: with every root directory missing,
`get_packages_list` raises `FileNotFoundError` rather than returning an
empty (or any) list as the claim states. -/
theorem C5_counterexample :
    fsC5.ex envC5.packagesPath = false
    ∧ get_packages_list envC5 fsC5 true = .error .fileNotFound := by
  refine ⟨by decide, by decide⟩

/-- C5 witness: the corrected theorem applied to `envC5`/`fsC5`. -/
theorem C5_witness : get_packages_list envC5 fsC5 false = .error .fileNotFound :=
  C5_missing_root_raises envC5 fsC5 false (Or.inl (by decide))

/-- C9 (confirmed): whenever `get_packages_list` returns a list — with
ignore filtering enabled or disabled — that list is lexicographically
sorted (by code points, the order of Python `sorted`) and duplicate-free
(set semantics across the three roots); and when ignore filtering is
enabled it contains no name from the host's `ignored_packages` list. -/
theorem C9_packages_list_sorted_nodup_ignored (env : Env) (fs : FS)
    (ig : Bool) (out : List Str) (h : get_packages_list env fs ig = .ok out) :
    List.Sorted strLeP out ∧ out.Nodup
      ∧ (ig = true → ∀ i ∈ env.ignoredPackages, i ∉ out) := by
  obtain ⟨s3, hnodup, rfl⟩ := get_packages_list_ok env fs ig out h
  refine ⟨pySorted_sorted _, ?_, ?_⟩
  · apply (pySorted_perm _).symm.nodup
    split
    · exact foldl_erase_nodup _ _ hnodup
    · exact hnodup
  · intro hig i hi hmem
    rw [if_pos hig] at hmem
    exact mem_ignored_not_in_foldl _ i hi s3 hnodup ((pySorted_perm _).mem_iff.mp hmem)

/-- Environment used by the C9 witness. -/
def envC9 : Env :=
  { version := 3126
    packagesPath := "/p9".data
    installedPackagesPath := "/i9".data
    executablePath := "/e9/st".data
    ignoredPackages := ["C".data] }

/-- Filesystem used by the C9 witness: the unpacked root holds `B` and
`A`, the installed root holds `C.sublime-package` (an ignored package),
the executable-adjacent root is empty. -/
def fsC9 : FS :=
  { ex := fun d => d = envC9.packagesPath ∨ d = envC9.installedPackagesPath
      ∨ d = execPackagesPath envC9
    listdir := fun d =>
      if d = envC9.packagesPath then ["B".data, "A".data]
      else if d = envC9.installedPackagesPath then ["C.sublime-package".data]
      else []
    readText := fun _ _ => []
    readBin := fun _ => []
    zipNamelist := fun _ => []
    zipBytes := fun _ _ => []
    zipExtract := fun _ _ => []
    decode := fun _ b => b
    loadResource := fun _ => none
    treeAt := fun _ => .node [] [] }

/-- C9 witness: applying the theorem to the concrete `envC9`/`fsC9` with
ignore filtering on — the package list computes to `["A", "B"]` with the
ignored `C` removed — and with ignore filtering off, where it computes to
`["A", "B", "C"]`. -/
theorem C9_witness :
    (List.Sorted strLeP ["A".data, "B".data]
      ∧ List.Nodup ["A".data, "B".data]
      ∧ (true = true → ∀ i ∈ envC9.ignoredPackages, i ∉ ["A".data, "B".data]))
    ∧ (List.Sorted strLeP ["A".data, "B".data, "C".data]
      ∧ List.Nodup ["A".data, "B".data, "C".data]
      ∧ (false = true →
          ∀ i ∈ envC9.ignoredPackages, i ∉ ["A".data, "B".data, "C".data])) :=
  ⟨C9_packages_list_sorted_nodup_ignored envC9 fsC9 true
      ["A".data, "B".data] (by decide),
    C9_packages_list_sorted_nodup_ignored envC9 fsC9 false
      ["A".data, "B".data, "C".data] (by decide)⟩

theorem nodup_if_setUpdate {c : Prop} [Decidable c] (s l : List Str)
    (h : s.Nodup) : (if c then setUpdate s l else s).Nodup := by
  split
  · exact setUpdate_nodup l s h
  · exact h

theorem collectedSet_nodup (env : Env) (fs : FS) (pkg : Str) (ign : List Str) :
    (collectedSet env fs pkg ign).Nodup := by
  have base : ∀ l : List Str, (setUpdate [] l).Nodup :=
    fun l => setUpdate_nodup l [] List.nodup_nil
  unfold collectedSet
  split
  · exact nodup_if_setUpdate _ _ (nodup_if_setUpdate _ _ (base _))
  · exact base _

/-- C6 (amended): for ignored-directory names built only of
regex-literal characters (for which the unescaped
`re.compile("%s/" % d).search` of the source is exactly a substring test —
the domain on which the embedding models that filter),
`list_package_files` returns a sorted sequence, and an entry is dropped by
the post-filter if and only if some ignored directory name followed by `/`
occurs in it as a substring *anywhere* — not only as a whole path segment:
`ab/x.py` with ignored name `b` is dropped, contrary to the original
claim.  The result is duplicate-free only when normalization is injective
on the collected raw names; distinct raw entries with the same canonical
form (e.g. `./x` and `x`) survive as duplicates, so the unconditional
duplicate-freeness of the original claim is also false. -/
theorem C6_list_files_filter_and_order (env : Env) (fs : FS) (pkg : Str)
    (ign : List Str)
    (hlit : ∀ d ∈ ign, ∀ c ∈ d, isRegexLiteralChar c = true) :
    List.Sorted strLeP (list_package_files env fs pkg ign)
    ∧ (∀ fn : Str, postFilterDropped ign fn = true
        ↔ ∃ d ∈ ign, ∃ l r, fn = l ++ (d ++ ['/']) ++ r)
    ∧ ((∀ a ∈ collectedSet env fs pkg ign, ∀ b ∈ collectedSet env fs pkg ign,
          normalize_to_sublime_path a = normalize_to_sublime_path b → a = b)
        → (list_package_files env fs pkg ign).Nodup) := by
  refine ⟨pySorted_sorted _, ?_, ?_⟩
  · intro fn
    simp only [postFilterDropped, List.any_eq_true, occursIn_iff]
  · intro hinj
    unfold list_package_files
    apply (pySorted_perm _).symm.nodup
    apply List.Nodup.map_on
    · intro a ha b hb hab
      exact hinj a (List.mem_of_mem_filter ha) b (List.mem_of_mem_filter hb) hab
    · exact (collectedSet_nodup env fs pkg ign).filter _

/-- Environment used by the C6 counterexample and witness. -/
def envC6 : Env :=
  { version := 3126
    packagesPath := "/p6".data
    installedPackagesPath := "/i6".data
    executablePath := "/e6/st".data
    ignoredPackages := [] }

/-- Filesystem for the C6 counterexample, substring-filter part: only the
installed archive of `PkgA` exists and it contains the entry `ab/x.py`. -/
def fsC6 : FS :=
  { ex := fun d => d = pyJoin2 envC6.installedPackagesPath ("PkgA".data ++ extArchive)
    listdir := fun _ => []
    readText := fun _ _ => []
    readBin := fun _ => []
    zipNamelist := fun _ => ["ab/x.py".data]
    zipBytes := fun _ _ => []
    zipExtract := fun _ _ => []
    decode := fun _ b => b
    loadResource := fun _ => none
    treeAt := fun _ => .node [] [] }

/-- Filesystem for the C6 counterexample, duplicate part: the archive
holds the two distinct raw entries `./x` and `x`, which normalize to the
same canonical path. -/
def fsC6b : FS :=
  { fsC6 with zipNamelist := fun _ => ["./x".data, "x".data] }

/-- Filesystem for the C6 witness: entries with pairwise distinct
canonical forms. -/
def fsC6w : FS :=
  { fsC6 with zipNamelist := fun _ => ["b.py".data, "a/c.py".data] }

/-- C6 counterexample: with ignored directory `b`, the archive entry
`ab/x.py` — in which `b` occurs only inside the longer segment `ab` — is
dropped by the post-filter (the claim says it is kept); and with no
ignored directories, the entries `./x` and `x` both survive and normalize
to `x`, so the returned sequence `[x, x]` is not duplicate-free. -/
theorem C6_counterexample :
    list_package_files envC6 fsC6 ("PkgA".data) ["b".data] = []
    ∧ list_package_files envC6 fsC6b ("PkgA".data) [] = ["x".data, "x".data]
    ∧ ¬ List.Nodup ["x".data, "x".data] := by
  refine ⟨by decide, by decide, by decide⟩

/-- C6 witness: the amended theorem's duplicate-freeness conclusion at a
concrete input with the metacharacter-free ignored name `a` and collected
names of pairwise distinct canonical forms. -/
theorem C6_witness :
    (∀ d ∈ [("a".data : Str)], ∀ c ∈ d, isRegexLiteralChar c = true)
    ∧ (∀ a ∈ collectedSet envC6 fsC6w ("PkgA".data) ["a".data],
      ∀ b ∈ collectedSet envC6 fsC6w ("PkgA".data) ["a".data],
        normalize_to_sublime_path a = normalize_to_sublime_path b → a = b)
    ∧ (list_package_files envC6 fsC6w ("PkgA".data) ["a".data]).Nodup :=
  ⟨by decide, by decide,
    (C6_list_files_filter_and_order envC6 fsC6w ("PkgA".data) ["a".data]
      (by decide)).2.2 (by decide)⟩

/-! ### Lemmas about the tiered resource lookup -/

theorem search_zip_none (fs : FS) (pp pkg R : Str) (gp rb : Bool) (enc : Str)
    (h : R ∉ fs.zipNamelist (pyJoin2 pp pkg)) :
    search_zip_for_file fs pp pkg R gp false rb enc = none := by
  unfold search_zip_for_file
  by_cases hex : fs.ex (pyJoin2 pp pkg) = true
  · rw [if_pos hex]
    simp [h]
  · rw [if_neg hex]

/-- C10 (confirmed): on hosts newer than build 3013 `get_package_resource`
ignores all of its options — for every choice of `get_path`,
`recursive_search`, `return_binary` and `encoding` it returns exactly
`sublime.load_resource("Package/" + package + "/" + resource)` (with the
caught `IOError` modelled as `none`), never a filesystem path or
undecoded bytes. -/
theorem C10_modern_host_delegates (env : Env) (fs : FS) (P R : Str)
    (gp rs rb : Bool) (enc : Str) (hv : 3013 < env.version) :
    get_package_resource env fs P R gp rs rb enc
      = fs.loadResource (pkgSlash ++ P ++ '/' :: R) := by
  unfold get_package_resource
  rw [if_pos hv]

/-- C7 (confirmed): on a host performing the full tiered lookup (version
at most 3013), when the unpacked directory of the package exists and the
directory tier locates the resource in it — at its exact relative path
when `recursive_search` is off, or as the path found by the `os.walk`
search when it is on — `get_package_resource` returns that directory
path's value (the path itself, its bytes, or its decoded text, as the
`get_path`/`return_binary` options select), for every filesystem and
every option setting, in particular regardless of what either archive
contains: the directory tier's hit short-circuits both archive tiers. -/
theorem C7_directory_tier_wins (env : Env) (fs : FS) (P R : Str)
    (gp rs rb : Bool) (enc pth : Str) (hv : ¬ 3013 < env.version)
    (hdir : fs.ex (pyJoin2 env.packagesPath P) = true)
    (hfound : (if rs then find_file fs (pyJoin2 env.packagesPath P) R
        else if fs.ex (pyJoin3 env.packagesPath P R) then
          some (pyJoin3 env.packagesPath P R)
        else none) = some pth)
    (hex : fs.ex pth = true) :
    get_package_resource env fs P R gp rs rb enc
      = some (if gp then pth
              else if rb then fs.readBin pth
              else fs.readText pth enc) := by
  unfold get_package_resource
  rw [if_neg hv]
  simp only [hdir, if_true, hfound, hex]

/-- C8 (confirmed): when the resource is present in no tier,
`get_package_resource` returns `none` and raises no error, on both the
delegating modern-host path (where the host loader's failure is the
absent value) and the manual tiered-lookup path (exact-path lookup,
arbitrary `get_path`/`return_binary`/`encoding`). -/
theorem C8_missing_resource_returns_none :
    (∀ (env : Env) (fs : FS) (P R : Str) (gp rs rb : Bool) (enc : Str),
      3013 < env.version →
      fs.loadResource (pkgSlash ++ P ++ '/' :: R) = none →
      get_package_resource env fs P R gp rs rb enc = none)
    ∧ (∀ (env : Env) (fs : FS) (P R : Str) (gp rb : Bool) (enc : Str),
      ¬ 3013 < env.version →
      fs.ex (pyJoin3 env.packagesPath P R) = false →
      R ∉ fs.zipNamelist (pyJoin2 env.installedPackagesPath (P ++ extArchive)) →
      R ∉ fs.zipNamelist (pyJoin2 (execPackagesPath env) (P ++ extArchive)) →
      get_package_resource env fs P R gp false rb enc = none) := by
  constructor
  · intro env fs P R gp rs rb enc hv hload
    unfold get_package_resource
    rw [if_pos hv]
    exact hload
  · intro env fs P R gp rb enc hv hfile hzip2 hzip3
    have hz2 := search_zip_none fs env.installedPackagesPath (P ++ extArchive) R
      gp rb enc hzip2
    have hz3 := search_zip_none fs (execPackagesPath env) (P ++ extArchive) R
      gp rb enc hzip3
    unfold get_package_resource
    rw [if_neg hv]
    by_cases hdir : fs.ex (pyJoin2 env.packagesPath P) = true <;>
      by_cases hv6 : 3006 ≤ env.version <;>
      by_cases hex2 : fs.ex (pyJoin2 env.installedPackagesPath (P ++ extArchive))
        = true <;>
      by_cases hex3 : fs.ex (pyJoin2 (execPackagesPath env) (P ++ extArchive))
        = true <;>
      simp [hdir, hv6, hex2, hex3, hfile, hz2, hz3]

/-- Environment for the C7 witness: an old host doing the manual lookup. -/
def envC7 : Env :=
  { version := 3010
    packagesPath := "/p7".data
    installedPackagesPath := "/i7".data
    executablePath := "/e7/st".data
    ignoredPackages := [] }

/-- Filesystem for the C7 witness: the package `P` exists both unpacked
(with text content `DIR`) and as an installed archive holding the same
resource with different content `ZIP`. -/
def fsC7 : FS :=
  { ex := fun d => d = pyJoin2 envC7.packagesPath "P".data
      ∨ d = pyJoin3 envC7.packagesPath "P".data "r.py".data
      ∨ d = pyJoin2 envC7.installedPackagesPath ("P".data ++ extArchive)
    listdir := fun _ => []
    readText := fun _ _ => "DIR".data
    readBin := fun _ => "DIRBIN".data
    zipNamelist := fun _ => ["r.py".data]
    zipBytes := fun _ _ => "ZIP".data
    zipExtract := fun _ _ => []
    decode := fun _ b => b
    loadResource := fun _ => none
    treeAt := fun _ => .node [] [] }

/-- C7 witness: with `P/r.py` present in both the unpacked directory and
the installed archive with different contents, a content lookup returns
the directory's content `DIR` — not the archive's `ZIP` — and a path
lookup returns the directory file's path. -/
theorem C7_witness :
    get_package_resource envC7 fsC7 ("P".data) ("r.py".data) false false false
        ("utf-8".data)
      = some ("DIR".data)
    ∧ get_package_resource envC7 fsC7 ("P".data) ("r.py".data) true false false
        ("utf-8".data)
      = some (pyJoin3 envC7.packagesPath ("P".data) ("r.py".data)) :=
  ⟨C7_directory_tier_wins envC7 fsC7 ("P".data) ("r.py".data) false false false
      ("utf-8".data) (pyJoin3 envC7.packagesPath ("P".data) ("r.py".data))
      (by decide) (by decide) (by decide) (by decide),
    C7_directory_tier_wins envC7 fsC7 ("P".data) ("r.py".data) true false false
      ("utf-8".data) (pyJoin3 envC7.packagesPath ("P".data) ("r.py".data))
      (by decide) (by decide) (by decide) (by decide)⟩

/-- Environment for the C8 witness, modern-host part. -/
def envC8a : Env :=
  { version := 3126
    packagesPath := "/p8".data
    installedPackagesPath := "/i8".data
    executablePath := "/e8/st".data
    ignoredPackages := [] }

/-- Filesystem for the C8 witness, modern-host part: the host loader
misses. -/
def fsC8a : FS :=
  { ex := fun _ => false
    listdir := fun _ => []
    readText := fun _ _ => []
    readBin := fun _ => []
    zipNamelist := fun _ => []
    zipBytes := fun _ _ => []
    zipExtract := fun _ _ => []
    decode := fun _ b => b
    loadResource := fun _ => none
    treeAt := fun _ => .node [] [] }

/-- Environment for the C8 witness, manual-path part. -/
def envC8b : Env :=
  { envC8a with version := 3010 }

/-- Filesystem for the C8 witness, manual-path part: the package directory
and both archives exist, but none of them holds the requested resource. -/
def fsC8b : FS :=
  { fsC8a with
    ex := fun d => d = pyJoin2 envC8b.packagesPath "P".data
      ∨ d = pyJoin2 envC8b.installedPackagesPath ("P".data ++ extArchive)
      ∨ d = pyJoin2 (execPackagesPath envC8b) ("P".data ++ extArchive)
    zipNamelist := fun _ => ["other.py".data] }

/-- C8 witness: a miss returns `none` on the delegating path and on the
manual tiered path. -/
theorem C8_witness :
    get_package_resource envC8a fsC8a ("P".data) ("r.py".data) true true true
        ("utf-8".data) = none
    ∧ get_package_resource envC8b fsC8b ("P".data) ("nope.py".data) false false
        false ("utf-8".data) = none :=
  ⟨C8_missing_resource_returns_none.1 envC8a fsC8a ("P".data) ("r.py".data)
      true true true ("utf-8".data) (by decide) (by decide),
   C8_missing_resource_returns_none.2 envC8b fsC8b ("P".data) ("nope.py".data)
      false false ("utf-8".data) (by decide) (by decide) (by decide) (by decide)⟩

/-- Environment for the C10 witness. -/
def envC10 : Env :=
  { version := 3126
    packagesPath := "/pt".data
    installedPackagesPath := "/it".data
    executablePath := "/et/st".data
    ignoredPackages := [] }

/-- Filesystem for the C10 witness: the host loader echoes the virtual
path it was asked for. -/
def fsC10 : FS :=
  { ex := fun _ => true
    listdir := fun _ => []
    readText := fun _ _ => "TEXT".data
    readBin := fun _ => "BIN".data
    zipNamelist := fun _ => []
    zipBytes := fun _ _ => []
    zipExtract := fun _ _ => []
    decode := fun _ b => b
    loadResource := fun p => some p
    treeAt := fun _ => .node [] [] }

/-- C10 witness: on a modern host, even a caller asking for a path
(`get_path = true`) and binary content receives exactly the host loader's
result for `Package/Pkg/res.txt`. -/
theorem C10_witness :
    get_package_resource envC10 fsC10 ("Pkg".data) ("res.txt".data) true true true
        ("latin-1".data)
      = fsC10.loadResource (pkgSlash ++ "Pkg".data ++ '/' :: "res.txt".data) :=
  C10_modern_host_delegates envC10 fsC10 ("Pkg".data) ("res.txt".data)
    true true true ("latin-1".data) (by decide)
